import Mathlib

/-!
# Verification of the conflux node pipeline

A shallow embedding of the conflux repository (Go) in Lean 4, together with
proofs and refutations of the specification claims.

Modelling conventions:

* Go strings are modelled as `List Char` (`Str`).  Go indexes strings by
  byte; the inputs relevant to the claims are ASCII, where bytes and
  characters coincide.
* External effects (HTTP fetches, DoH answers, egress probes, the random
  source, the environment, file contents) are oracle parameters.
* Go map iteration order is unspecified; folds over association lists fix a
  serialization of it, as do folds over worker-pool result channels.
* A Go runtime panic (out-of-bounds string index, nil map entry) is
  modelled by `Option`, `none` marking the panic.
-/

set_option maxHeartbeats 1000000

namespace Conflux

/-- Go strings, as lists of characters. -/
abbrev Str := List Char

/-! ## Character / string primitives (Go `strings` package) -/

/-- Whitespace recognised by `strings.TrimSpace` (ASCII fragment). -/
def isSpaceC (c : Char) : Bool :=
  c = ' ' || c = '\t' || c = '\n' || c = '\r'

/-- `strings.TrimSpace`: drop whitespace from both ends. -/
def trimSpace (l : Str) : Str :=
  ((l.dropWhile isSpaceC).reverse.dropWhile isSpaceC).reverse

/-- `strings.Split(s, sep)` for a one-character separator. -/
def splitC (sep : Char) : Str → List Str
  | [] => [[]]
  | c :: rest =>
    if c = sep then [] :: splitC sep rest
    else
      match splitC sep rest with
      | [] => [[c]]
      | h :: t => (c :: h) :: t

/-- `strings.Join(parts, sep)` for a one-character separator. -/
def joinC (sep : Char) : List Str → Str
  | [] => []
  | [x] => x
  | x :: y :: t => x ++ sep :: joinC sep (y :: t)

/-- `strings.SplitN(s, sep, 2)` for a one-character separator. -/
def splitN2 (sep : Char) (l : Str) : List Str :=
  if sep ∈ l then
    [l.takeWhile (fun c => !(c = sep : Bool)), l.drop ((l.takeWhile (fun c => !(c = sep : Bool))).length + 1)]
  else [l]

/-- Index of the first occurrence of substring `p` (`strings.Index`),
`none` when absent. -/
def idxOfSub (p : Str) : Str → Option Nat
  | [] => if p = [] then some 0 else none
  | c :: rest =>
    if p <+: (c :: rest) then some 0
    else (idxOfSub p rest).map (· + 1)

/-- `strings.Contains(l, p)`. -/
def containsSub (p l : Str) : Bool :=
  (idxOfSub p l).isSome

/-- `strings.ReplaceAll(s, "=true", "=1")`, scanning left to right. -/
def replaceEqTrue : Str → Str
  | '=' :: 't' :: 'r' :: 'u' :: 'e' :: rest => '=' :: '1' :: replaceEqTrue rest
  | c :: rest => c :: replaceEqTrue rest
  | [] => []

/-- `strings.ReplaceAll(s, "=false", "=0")`, scanning left to right. -/
def replaceEqFalse : Str → Str
  | '=' :: 'f' :: 'a' :: 'l' :: 's' :: 'e' :: rest => '=' :: '0' :: replaceEqFalse rest
  | c :: rest => c :: replaceEqFalse rest
  | [] => []

/-! ## server.go — override rewrite -/

/-- The recognised query parameters of `processNodes` (server.go):
`udp → udp-relay`, `quic → block-quic`, `tfo → tfo`; anything else is
unrecognised (`none`). -/
def paramMap (k : Str) : Option Str :=
  if k = "udp".toList then some ("udp-relay".toList)
  else if k = "quic".toList then some ("block-quic".toList)
  else if k = "tfo".toList then some ("tfo".toList)
  else none

/-- `replaceAttr` (server.go): replace the value following the first
occurrence of `attr=` up to the next comma or the end of the line. -/
def replaceAttr (line attr val : Str) : Str :=
  match idxOfSub (attr ++ ['=']) line with
  | none => line
  | some idx =>
    let start := idx + (attr ++ ['=']).length
    match idxOfSub [','] (line.drop start) with
    | none => line.take start ++ val
    | some e => line.take start ++ val ++ (line.drop start).drop e

/-- The override pass of `processNodes`: for every recognised parameter,
apply `replaceAttr` for each of its values. -/
def overridePass (params : List (Str × List Str)) (line : Str) : Str :=
  params.foldl (fun l kv =>
    match paramMap kv.1 with
    | none => l
    | some attr => kv.2.foldl (fun l2 v => replaceAttr l2 attr v) l) line

/-- The append pass of `processNodes`: for every recognised parameter whose
`attr=` is absent from the line, append `,attr=val`. -/
def appendPass (params : List (Str × List Str)) (line : Str) : Str :=
  params.foldl (fun l kv =>
    match paramMap kv.1 with
    | none => l
    | some attr => kv.2.foldl (fun l2 v =>
        if containsSub (attr ++ ['=']) l2 then l2
        else l2 ++ [','] ++ attr ++ ['='] ++ v) l) line

/-- `processNodes` (server.go, restricted variant): trim each line, skip
blank lines, run the override pass then the append pass.  Query parameters
are carried as an association list, fixing one serialization of Go's map
iteration order. -/
def processNodes (lines : List Str) (params : List (Str × List Str)) : List Str :=
  lines.foldl (fun acc line =>
    let t := trimSpace line
    if t = [] then acc
    else acc ++ [appendPass params (overridePass params t)]) []

/-! ## Toolkit: first-occurrence substring search -/

theorem idxOfSub_nil_pos (p l : Str) (h : p = []) : idxOfSub p l = some 0 := by
  cases l with
  | nil => simp [idxOfSub, h]
  | cons c rest => simp [idxOfSub, h]

theorem idxOfSub_some_pre (p : Str) :
    ∀ (l : Str) (i : Nat), idxOfSub p l = some i → p <+: l.drop i := by
  intro l
  induction l with
  | nil =>
    intro i h
    by_cases hp : p = []
    · subst hp
      simp [idxOfSub] at h
      subst h
      simp
    · simp [idxOfSub, hp] at h
  | cons c rest ih =>
    intro i h
    by_cases hpre : p <+: (c :: rest)
    · simp [idxOfSub, hpre] at h
      subst h
      simpa using hpre
    · simp [idxOfSub, hpre] at h
      obtain ⟨j, hj, rfl⟩ := h
      simpa using ih j hj

theorem idxOfSub_some_min (p : Str) :
    ∀ (l : Str) (i : Nat), idxOfSub p l = some i →
      ∀ j, j < i → ¬ p <+: l.drop j := by
  intro l
  induction l with
  | nil =>
    intro i h j hj
    by_cases hp : p = []
    · subst hp
      simp [idxOfSub] at h
      omega
    · simp [idxOfSub, hp] at h
  | cons c rest ih =>
    intro i h j hj
    by_cases hpre : p <+: (c :: rest)
    · simp [idxOfSub, hpre] at h
      omega
    · simp [idxOfSub, hpre] at h
      obtain ⟨i2, hi2, rfl⟩ := h
      cases j with
      | zero => simpa using hpre
      | succ j2 =>
        have := ih i2 hi2 j2 (by omega)
        simpa using this

theorem idxOfSub_none (p : Str) :
    ∀ (l : Str), idxOfSub p l = none → ∀ j, ¬ p <+: l.drop j := by
  intro l
  induction l with
  | nil =>
    intro h j
    by_cases hp : p = []
    · simp [idxOfSub, hp] at h
    · simp [hp]
  | cons c rest ih =>
    intro h j
    by_cases hpre : p <+: (c :: rest)
    · simp [idxOfSub, hpre] at h
    · simp [idxOfSub, hpre] at h
      cases j with
      | zero => simpa using hpre
      | succ j2 => simpa using ih h j2

theorem idxOfSub_eq_some (p : Str) :
    ∀ (l : Str) (i : Nat), p <+: l.drop i → (∀ j, j < i → ¬ p <+: l.drop j) →
      idxOfSub p l = some i := by
  intro l
  induction l with
  | nil =>
    intro i hp hmin
    have hpnil : p = [] := by
      rw [List.drop_nil] at hp
      exact List.prefix_nil.mp hp
    have hi : i = 0 := by
      by_contra hne
      exact hmin 0 (by omega) (by simp [hpnil])
    subst hi
    simp [idxOfSub, hpnil]
  | cons c rest ih =>
    intro i hp hmin
    cases i with
    | zero =>
      simp only [List.drop_zero] at hp
      simp [idxOfSub, hp]
    | succ i2 =>
      have hnot : ¬ p <+: (c :: rest) := by
        have := hmin 0 (by omega)
        simpa using this
      have hrec : idxOfSub p rest = some i2 := by
        apply ih
        · simpa using hp
        · intro j hj
          have := hmin (j + 1) (by omega)
          simpa using this
      simp [idxOfSub, hnot, hrec]

theorem containsSub_of_pre_drop (p l : Str) (j : Nat) (h : p <+: l.drop j) :
    containsSub p l = true := by
  unfold containsSub
  cases hidx : idxOfSub p l with
  | none => exact absurd h (idxOfSub_none p l hidx j)
  | some i => rfl

theorem containsSub_false_no_pre (p l : Str) (h : containsSub p l = false) :
    ∀ j, ¬ p <+: l.drop j := by
  unfold containsSub at h
  cases hidx : idxOfSub p l with
  | none => exact idxOfSub_none p l hidx
  | some i => rw [hidx] at h; simp at h

/-- A pattern without the separator that is a prefix of `u ++ c :: w` is a
prefix of `u` alone. -/
theorem pre_of_append_sep (p u w : Str) (c : Char) (hp : p <+: u ++ c :: w)
    (hc : c ∉ p) : p <+: u := by
  rcases le_or_lt p.length u.length with hle | hlt
  · obtain ⟨r, hr⟩ := hp
    have hP : (u ++ c :: w).take p.length = p := by
      rw [← hr]; exact List.take_left p r
    rw [List.take_append_eq_append_take] at hP
    have h0 : p.length - u.length = 0 := by omega
    rw [h0] at hP
    simp at hP
    rw [← hP]
    exact List.take_prefix p.length u
  · exfalso
    have hu : u <+: u ++ c :: w := ⟨c :: w, rfl⟩
    have hup : u <+: p := List.prefix_of_prefix_length_le hu hp (by omega)
    obtain ⟨p2, hp2⟩ := hup
    subst hp2
    have hp2c : p2 <+: c :: w := (List.prefix_append_right_inj u).mp hp
    cases p2 with
    | nil => simp at hlt
    | cons x xs =>
      obtain ⟨r2, hr2⟩ := hp2c
      rw [List.cons_append] at hr2
      have hx : x = c := (List.cons.injEq ..).mp hr2 |>.1
      exact hc (by simp [hx])

theorem idxOfSub_single_none (c : Char) (l : Str) (h : c ∉ l) :
    idxOfSub [c] l = none := by
  induction l with
  | nil => simp [idxOfSub]
  | cons d rest ih =>
    have hdc : ¬ [c] <+: d :: rest := by
      rw [List.cons_prefix_cons]
      rintro ⟨rfl, -⟩
      exact h (by simp)
    have hrest : idxOfSub [c] rest = none := ih (fun hm => h (by simp [hm]))
    simp [idxOfSub, hdc, hrest]

theorem idxOfSub_single_at (c : Char) (u t : Str) (h : c ∉ u) :
    idxOfSub [c] (u ++ c :: t) = some u.length := by
  induction u with
  | nil =>
    have : [c] <+: c :: t := by simp [List.cons_prefix_cons]
    simp [idxOfSub, this]
  | cons d u2 ih =>
    have hcd : ¬ (c = d) := fun h0 => h (by simp [h0])
    have hdc : ¬ [c] <+: (d :: u2) ++ c :: t := by
      rw [List.cons_append, List.cons_prefix_cons]
      rintro ⟨rfl, -⟩
      exact hcd rfl
    have hrec := ih (fun hm => h (by simp [hm]))
    simp [idxOfSub, hdc, hrec, hcd]

theorem replaceAttr_of_not_contains (line attr val : Str)
    (h : containsSub (attr ++ ['=']) line = false) :
    replaceAttr line attr val = line := by
  unfold containsSub at h
  unfold replaceAttr
  cases hidx : idxOfSub (attr ++ ['=']) line with
  | none => rfl
  | some i => rw [hidx] at h; simp at h

/-- Computation of `replaceAttr` at an explicit first-occurrence
decomposition of the line. -/
theorem replaceAttr_decomp (a u t attr val : Str)
    (hmin : ∀ j, j < a.length → ¬ (attr ++ ['=']) <+: (a ++ attr ++ ['='] ++ u ++ t).drop j)
    (hu : ',' ∉ u) (ht : t = [] ∨ ∃ t2, t = ',' :: t2) :
    replaceAttr (a ++ attr ++ ['='] ++ u ++ t) attr val
      = a ++ attr ++ ['='] ++ val ++ t := by
  have hline : a ++ attr ++ ['='] ++ u ++ t
      = a ++ ((attr ++ ['=']) ++ (u ++ t)) := by
    simp [List.append_assoc]
  have hidx : idxOfSub (attr ++ ['=']) (a ++ attr ++ ['='] ++ u ++ t) = some a.length := by
    apply idxOfSub_eq_some
    · rw [hline, List.drop_left]
      exact ⟨u ++ t, rfl⟩
    · exact hmin
  have hstart : a.length + (attr ++ ['=']).length = (a ++ attr ++ ['=']).length := by
    simp [List.append_assoc]
  have hdrop : (a ++ attr ++ ['='] ++ u ++ t).drop (a.length + (attr ++ ['=']).length)
      = u ++ t := by
    rw [hstart]
    have : a ++ attr ++ ['='] ++ u ++ t = (a ++ attr ++ ['=']) ++ (u ++ t) := by
      simp [List.append_assoc]
    rw [this, List.drop_left]
  have htake : (a ++ attr ++ ['='] ++ u ++ t).take (a.length + (attr ++ ['=']).length)
      = a ++ attr ++ ['='] := by
    rw [hstart]
    have : a ++ attr ++ ['='] ++ u ++ t = (a ++ attr ++ ['=']) ++ (u ++ t) := by
      simp [List.append_assoc]
    rw [this, List.take_left]
  unfold replaceAttr
  rw [hidx]
  simp only [hdrop, htake]
  rcases ht with rfl | ⟨t2, rfl⟩
  · rw [List.append_nil, idxOfSub_single_none ',' u hu]
    simp [List.append_assoc]
  · rw [idxOfSub_single_at ',' u t2 hu]
    simp only [List.drop_left]

theorem processNodes_single (line : Str) (params : List (Str × List Str))
    (h1 : trimSpace line = line) (h2 : line ≠ []) :
    processNodes [line] params = [appendPass params (overridePass params line)] := by
  simp [processNodes, h1, h2]

/-- **C4** — the override rewrite of `processNodes`.  (a) an unrecognised
query parameter leaves the line unchanged; (b) when `attr=` is absent
from the line, `,attr=val` is appended at the end; (c) when `attr=` is
present (first occurrence after prefix `a`), the value between it and the
next comma (or end of line) is replaced by the given value; (d) the
concrete scenario S4: on `X = ss,1.1.1.1,443, udp-relay=1,block-quic=0`
the query `udp=0&tfo=1` yields
`X = ss,1.1.1.1,443, udp-relay=0,block-quic=0,tfo=1`. -/
theorem c4_override_rewrite :
    (∀ (line k : Str) (vs : List Str), paramMap k = none →
        trimSpace line = line → line ≠ [] →
        processNodes [line] [(k, vs)] = [line])
    ∧ (∀ line k attr val : Str, paramMap k = some attr →
        containsSub (attr ++ ['=']) line = false →
        trimSpace line = line → line ≠ [] →
        processNodes [line] [(k, [val])] = [line ++ [','] ++ attr ++ ['='] ++ val])
    ∧ (∀ a u t k attr val : Str, paramMap k = some attr →
        (∀ j, j < a.length → ¬ (attr ++ ['=']) <+: (a ++ attr ++ ['='] ++ u ++ t).drop j) →
        ',' ∉ u → (t = [] ∨ ∃ t2, t = ',' :: t2) →
        trimSpace (a ++ attr ++ ['='] ++ u ++ t) = a ++ attr ++ ['='] ++ u ++ t →
        processNodes [a ++ attr ++ ['='] ++ u ++ t] [(k, [val])]
          = [a ++ attr ++ ['='] ++ val ++ t])
    ∧ processNodes ["X = ss,1.1.1.1,443, udp-relay=1,block-quic=0".toList]
          [("udp".toList, [['0']]), ("tfo".toList, [['1']])]
        = ["X = ss,1.1.1.1,443, udp-relay=0,block-quic=0,tfo=1".toList] := by
  refine ⟨?_, ?_, ?_, by decide⟩
  · intro line k vs hk h1 h2
    rw [processNodes_single line _ h1 h2]
    simp [overridePass, appendPass, hk]
  · intro line k attr val hk hnc h1 h2
    rw [processNodes_single line _ h1 h2]
    have hover : overridePass [(k, [val])] line = line := by
      simp [overridePass, hk, replaceAttr_of_not_contains line attr val hnc]
    rw [hover]
    simp [appendPass, hk, hnc]
  · intro a u t k attr val hk hmin hu ht h1
    have h2 : a ++ attr ++ ['='] ++ u ++ t ≠ [] := by
      intro h0
      have : ('=' : Char) ∈ a ++ attr ++ ['='] ++ u ++ t := by simp
      rw [h0] at this
      simp at this
    rw [processNodes_single _ _ h1 h2]
    have hover : overridePass [(k, [val])] (a ++ attr ++ ['='] ++ u ++ t)
        = a ++ attr ++ ['='] ++ val ++ t := by
      simp only [overridePass, List.foldl_cons, List.foldl_nil, hk]
      exact replaceAttr_decomp a u t attr val hmin hu ht
    rw [hover]
    have hcont : containsSub (attr ++ ['=']) (a ++ attr ++ ['='] ++ val ++ t) = true := by
      apply containsSub_of_pre_drop _ _ a.length
      have hre : a ++ attr ++ ['='] ++ val ++ t = a ++ ((attr ++ ['=']) ++ (val ++ t)) := by
        simp [List.append_assoc]
      rw [hre, List.drop_left]
      exact ⟨val ++ t, rfl⟩
    have happ : appendPass [(k, [val])] (a ++ attr ++ ['='] ++ val ++ t)
        = a ++ attr ++ ['='] ++ val ++ t := by
      simp only [appendPass, List.foldl_cons, List.foldl_nil, hk]
      rw [if_pos hcont]
    rw [happ]

/-- Witness for C4: the replace branch applied at a concrete line. -/
theorem c4_override_rewrite_witness :
    processNodes ["X = ss,1,2, ".toList ++ "udp-relay".toList ++ ['='] ++ ['9'] ++ []]
        [("udp".toList, [['7']])]
      = ["X = ss,1,2, ".toList ++ "udp-relay".toList ++ ['='] ++ ['7'] ++ []] :=
  c4_override_rewrite.2.2.1 ("X = ss,1,2, ".toList) ['9'] [] ("udp".toList)
    ("udp-relay".toList) ['7'] (by decide) (by decide) (by decide) (Or.inl rfl)
    (by decide)

/-! ## Toolkit: trimming and edge characters -/

theorem head_dropWhile_no (p : Char → Bool) :
    ∀ (l : Str) (c : Char), (l.dropWhile p).head? = some c → p c = false := by
  intro l
  induction l with
  | nil => intro c h; simp [List.dropWhile] at h
  | cons d r ih =>
    intro c h
    by_cases hd : p d
    · rw [List.dropWhile_cons, if_pos hd] at h
      exact ih c h
    · rw [List.dropWhile_cons, if_neg hd] at h
      simp at h
      rw [← h]
      exact Bool.not_eq_true _ |>.mp hd

theorem head_of_append_ne (x y : Str) (hx : x ≠ []) : (x ++ y).head? = x.head? := by
  cases x with
  | nil => exact absurd rfl hx
  | cons c r => rfl

theorem last_of_append_ne (x y : Str) (hy : y ≠ []) :
    (x ++ y).getLast? = y.getLast? := by
  rw [← List.head?_reverse, ← List.head?_reverse y, List.reverse_append]
  exact head_of_append_ne _ _ (by simpa using hy)

theorem trimSpace_head (l : Str) (c : Char) (h : (trimSpace l).head? = some c) :
    isSpaceC c = false := by
  have hsuf : ((l.dropWhile isSpaceC).reverse.dropWhile isSpaceC)
      <:+ (l.dropWhile isSpaceC).reverse := List.dropWhile_suffix _
  obtain ⟨w, hw⟩ := hsuf
  have hD : l.dropWhile isSpaceC = trimSpace l ++ w.reverse := by
    have h2 := congrArg List.reverse hw
    rw [List.reverse_append, List.reverse_reverse] at h2
    exact h2.symm
  have hne : trimSpace l ≠ [] := by
    intro h0; rw [h0] at h; simp at h
  have : (l.dropWhile isSpaceC).head? = some c := by
    rw [hD, head_of_append_ne _ _ hne]; exact h
  exact head_dropWhile_no isSpaceC l c this

theorem trimSpace_last (l : Str) (c : Char) (h : (trimSpace l).getLast? = some c) :
    isSpaceC c = false := by
  unfold trimSpace at h
  rw [List.getLast?_reverse] at h
  exact head_dropWhile_no isSpaceC _ c h

theorem trimSpace_eq_self (l : Str)
    (h1 : ∀ c, l.head? = some c → isSpaceC c = false)
    (h2 : ∀ c, l.getLast? = some c → isSpaceC c = false) :
    trimSpace l = l := by
  have hd : l.dropWhile isSpaceC = l := by
    cases l with
    | nil => rfl
    | cons c r =>
      rw [List.dropWhile_cons, if_neg]
      simp [h1 c rfl]
  unfold trimSpace
  rw [hd]
  have hr : l.reverse.dropWhile isSpaceC = l.reverse := by
    cases hrev : l.reverse with
    | nil => rfl
    | cons c r =>
      rw [List.dropWhile_cons, if_neg]
      have : l.getLast? = some c := by
        rw [← List.head?_reverse, hrev]; rfl
      simp [h2 c this]
  rw [hr, List.reverse_reverse]

theorem head_last_of_trim_eq (l : Str) (h : trimSpace l = l) :
    (∀ c, l.head? = some c → isSpaceC c = false)
    ∧ (∀ c, l.getLast? = some c → isSpaceC c = false) := by
  constructor
  · intro c hc; exact trimSpace_head l c (by rw [h]; exact hc)
  · intro c hc; exact trimSpace_last l c (by rw [h]; exact hc)

theorem trimSpace_idem (l : Str) : trimSpace (trimSpace l) = trimSpace l := by
  apply trimSpace_eq_self
  · exact trimSpace_head l
  · exact trimSpace_last l

/-! ## Toolkit: occurrence decomposition and transfer -/

theorem pre_take_of_le (p x : Str) (n : Nat) (h : p <+: x) (hn : p.length ≤ n) :
    p <+: x.take n := by
  obtain ⟨r, rfl⟩ := h
  rw [List.take_append_eq_append_take, List.take_of_length_le hn]
  exact ⟨r.take (n - p.length), rfl⟩

theorem pre_drop_transfer (p l1 l2 : Str) (j k : Nat) (he : l1.take k = l2.take k)
    (hb : j + p.length ≤ k) (h : p <+: l1.drop j) : p <+: l2.drop j := by
  have h1 : p <+: (l1.drop j).take (k - j) := pre_take_of_le p _ _ h (by omega)
  rw [← List.drop_take, he, List.drop_take] at h1
  exact h1.trans (List.take_prefix _ _)

theorem idxOfSub_decomp (p l : Str) (i : Nat) (h : idxOfSub p l = some i) :
    l = l.take i ++ p ++ l.drop (i + p.length) := by
  obtain ⟨r, hr⟩ := idxOfSub_some_pre p l i h
  have h2 : l.drop (i + p.length) = r := by
    rw [← List.drop_drop, ← hr, List.drop_left]
  rw [h2, List.append_assoc, hr, List.take_append_drop]

theorem idxOfSub_len_le (p l : Str) (i : Nat) (hp : p ≠ [])
    (h : idxOfSub p l = some i) : i + p.length ≤ l.length := by
  obtain ⟨r, hr⟩ := idxOfSub_some_pre p l i h
  have h1 : (l.drop i).length = p.length + r.length := by rw [← hr]; simp
  have h2 : (l.drop i).length = l.length - i := by simp
  have h3 : l.length - i = p.length + r.length := by omega
  rcases le_or_lt i l.length with hle | hlt
  · omega
  · exfalso
    have : l.drop i = [] := List.drop_eq_nil_of_le (by omega)
    rw [this] at hr
    have : p = [] := by
      cases p with
      | nil => rfl
      | cons a b => simp at hr
    exact hp this

theorem not_mem_take_of_no_single (c : Char) :
    ∀ (l : Str) (e : Nat), (∀ j, j < e → ¬ [c] <+: l.drop j) → c ∉ l.take e := by
  intro l
  induction l with
  | nil => intro e h hm; simp at hm
  | cons d r ih =>
    intro e h hm
    cases e with
    | zero => simp at hm
    | succ e2 =>
      rw [List.take_succ_cons] at hm
      rcases List.mem_cons.mp hm with rfl | hm2
      · exact h 0 (by omega) (by simp [List.cons_prefix_cons])
      · exact ih e2 (fun j hj => by simpa using h (j + 1) (by omega)) hm2

theorem single_pre_of_mem (c : Char) (l : Str) (h : c ∈ l) :
    ∃ j, [c] <+: l.drop j := by
  obtain ⟨s, t, rfl⟩ := List.append_of_mem h
  refine ⟨s.length, ?_⟩
  rw [List.drop_left]
  exact ⟨t, rfl⟩

theorem head_take (l : Str) (n : Nat) (h : l.take n ≠ []) :
    (l.take n).head? = l.head? := by
  cases l with
  | nil => simp at h
  | cons c r =>
    cases n with
    | zero => simp at h
    | succ m => simp

/-- Basic facts about the three attribute names produced by `paramMap`. -/
theorem paramMap_attr_facts (k attr : Str) (hk : paramMap k = some attr) :
    ',' ∉ attr ∧ attr ≠ [] ∧ (∀ c, attr.head? = some c → isSpaceC c = false) := by
  unfold paramMap at hk
  split_ifs at hk with h1 h2 h3 <;> simp only [Option.some.injEq] at hk <;>
    rw [← hk] <;> refine ⟨by decide, by decide, by decide⟩

/-- **C6 counterexample** — the line-level override rewrite is not
idempotent as claimed: a query value containing a comma breaks it, and so
does a pair of recognised parameters with the documented `0`/`1` values
when one attribute marker occurs inside another attribute's value. -/
theorem c6_counterexample :
    (processNodes (processNodes ["X = ss,1.1.1.1,443, a=1".toList]
          [("udp".toList, ["0,b".toList])]) [("udp".toList, ["0,b".toList])]
      ≠ processNodes ["X = ss,1.1.1.1,443, a=1".toList]
          [("udp".toList, ["0,b".toList])])
    ∧ (processNodes (processNodes ["N = ss, block-quic=xtfo=9, c=tfo=7".toList]
          [("tfo".toList, [['1']]), ("quic".toList, [['0']])])
          [("tfo".toList, [['1']]), ("quic".toList, [['0']])]
      ≠ processNodes ["N = ss, block-quic=xtfo=9, c=tfo=7".toList]
          [("tfo".toList, [['1']]), ("quic".toList, [['0']])]) := by
  exact ⟨by decide, by decide⟩

/-- **C6 (amended)** — the override rewrite is idempotent for a query
carrying a single recognised parameter with a single value that contains
no comma and no surrounding whitespace: applying `processNodes` twice with
such a query yields the same line list as applying it once. -/
theorem c6_idempotent_amended (line k attr val : Str) (hk : paramMap k = some attr)
    (hval1 : ',' ∉ val) (hval2 : trimSpace val = val) :
    processNodes (processNodes [line] [(k, [val])]) [(k, [val])]
      = processNodes [line] [(k, [val])] := by
  obtain ⟨hcomma, hattrne, hheadat⟩ := paramMap_attr_facts k attr hk
  have hcpre : ',' ∉ attr ++ ['='] := by
    intro hm
    rcases List.mem_append.mp hm with h | h
    · exact hcomma h
    · simp at h
  have hpresne : attr ++ ['='] ≠ [] := by simp
  have hop : ∀ s : Str, overridePass [(k, [val])] s = replaceAttr s attr val := by
    intro s; simp [overridePass, hk]
  have hap : ∀ s : Str, appendPass [(k, [val])] s
      = if containsSub (attr ++ ['=']) s then s
        else s ++ [','] ++ attr ++ ['='] ++ val := by
    intro s; simp [appendPass, hk]
  by_cases h0 : trimSpace line = []
  · simp [processNodes, h0]
  · have hfirst : processNodes [line] [(k, [val])]
        = [appendPass [(k, [val])] (overridePass [(k, [val])] (trimSpace line))] := by
      simp [processNodes, h0]
    set t0 := trimSpace line with ht0def
    have ht0trim : trimSpace t0 = t0 := trimSpace_idem line
    obtain ⟨ht0h, ht0l⟩ := head_last_of_trim_eq t0 ht0trim
    by_cases hc : containsSub (attr ++ ['=']) t0 = true
    · -- replace path: attr= occurs in the trimmed line
      unfold containsSub at hc
      rw [Option.isSome_iff_exists] at hc
      obtain ⟨i, hidx⟩ := hc
      have hlen : i + (attr ++ ['=']).length ≤ t0.length :=
        idxOfSub_len_le _ t0 i hpresne hidx
      set a := t0.take i with hadef
      set rest := t0.drop (i + (attr ++ ['=']).length) with hrestdef
      have hlena : a.length = i := by
        rw [hadef, List.length_take]
        have hple : 0 < (attr ++ ['=']).length := by simp
        omega
      have hdec : t0 = a ++ (attr ++ ['=']) ++ rest := idxOfSub_decomp _ t0 i hidx
      have hmin0 := idxOfSub_some_min _ t0 i hidx
      obtain ⟨u, t, hu, ht, hrest⟩ :
          ∃ u t, ',' ∉ u ∧ (t = [] ∨ ∃ t2, t = ',' :: t2) ∧ rest = u ++ t := by
        cases hcm : idxOfSub [','] rest with
        | none =>
          refine ⟨rest, [], ?_, Or.inl rfl, by simp⟩
          intro hm
          obtain ⟨j, hj⟩ := single_pre_of_mem ',' rest hm
          exact idxOfSub_none _ _ hcm j hj
        | some e =>
          obtain ⟨w, hw⟩ := idxOfSub_some_pre _ rest e hcm
          refine ⟨rest.take e, ',' :: w, ?_, Or.inr ⟨w, rfl⟩, ?_⟩
          · exact not_mem_take_of_no_single ',' rest e (idxOfSub_some_min _ rest e hcm)
          · have : rest.drop e = ',' :: w := by
              rw [← hw]; rfl
            rw [← this, List.take_append_drop]
      have ht0shape : t0 = a ++ attr ++ ['='] ++ u ++ t := by
        rw [hdec, hrest]; simp [List.append_assoc]
      have hminT : ∀ j, j < a.length →
          ¬ (attr ++ ['=']) <+: (a ++ attr ++ ['='] ++ u ++ t).drop j := by
        intro j hj
        rw [← ht0shape]
        exact hmin0 j (by omega)
      have hra : replaceAttr t0 attr val = a ++ attr ++ ['='] ++ val ++ t := by
        rw [ht0shape]
        exact replaceAttr_decomp a u t attr val hminT hu ht
      set L1 := a ++ attr ++ ['='] ++ val ++ t with hL1def
      have ht0shape2 : t0 = (a ++ (attr ++ ['='])) ++ (u ++ t) := by
        rw [ht0shape]; simp [List.append_assoc]
      have hL1shape3 : L1 = a ++ ((attr ++ ['=']) ++ (val ++ t)) := by
        rw [hL1def]; simp [List.append_assoc]
      have hcont1 : containsSub (attr ++ ['=']) L1 = true := by
        apply containsSub_of_pre_drop _ _ a.length
        rw [hL1shape3, List.drop_left]
        exact ⟨val ++ t, rfl⟩
      have hout1 : processNodes [line] [(k, [val])] = [L1] := by
        rw [hfirst, hop, hra, hap, if_pos hcont1]
      have hL1trim : trimSpace L1 = L1 := by
        apply trimSpace_eq_self
        · intro c hcH
          by_cases ha : a = []
          · have h1 : L1.head? = attr.head? := by
              rw [hL1shape3, ha, List.nil_append, head_of_append_ne _ _ hpresne]
              exact head_of_append_ne attr ['='] hattrne
            exact hheadat c (by rw [← h1]; exact hcH)
          · have h1 : L1.head? = t0.head? := by
              rw [hL1shape3, head_of_append_ne _ _ ha, hadef]
              exact head_take t0 i (by rw [← hadef]; exact ha)
            exact ht0h c (by rw [← h1]; exact hcH)
        · intro c hcL
          rcases ht with rfl | ⟨t2, rfl⟩
          · by_cases hv : val = []
            · have h1 : L1.getLast? = some '=' := by
                rw [hL1def, hv, List.append_nil, List.append_nil]
                rw [last_of_append_ne _ _ (by simp : (['='] : Str) ≠ [])]
                rfl
              have hce : '=' = c := by
                rw [h1] at hcL
                exact (Option.some.injEq _ _).mp hcL
              rw [← hce]; decide
            · have h1 : L1.getLast? = val.getLast? := by
                rw [hL1def, List.append_nil]
                exact last_of_append_ne _ _ hv
              exact (head_last_of_trim_eq val hval2).2 c (by rw [← h1]; exact hcL)
          · have htne : (',' :: t2 : Str) ≠ [] := by simp
            have h1 : L1.getLast? = t0.getLast? := by
              rw [hL1def, last_of_append_ne _ _ htne, ht0shape,
                last_of_append_ne _ _ htne]
            exact ht0l c (by rw [← h1]; exact hcL)
      have hL1ne : L1 ≠ [] := by
        intro h0x
        have hmm : ('=' : Char) ∈ L1 := by rw [hL1def]; simp
        rw [h0x] at hmm
        simp at hmm
      have htake_eq : (a ++ attr ++ ['='] ++ val ++ t).take (i + (attr ++ ['=']).length)
          = t0.take (i + (attr ++ ['=']).length) := by
        have h1 : a ++ attr ++ ['='] ++ val ++ t
            = (a ++ (attr ++ ['='])) ++ (val ++ t) := by
          simp [List.append_assoc]
        have hlen2 : i + (attr ++ ['=']).length = (a ++ (attr ++ ['='])).length := by
          simp [hlena]
        rw [h1, ht0shape2, hlen2, List.take_left, List.take_left]
      have hminL1 : ∀ j, j < a.length →
          ¬ (attr ++ ['=']) <+: (a ++ attr ++ ['='] ++ val ++ t).drop j := by
        intro j hj hpj
        apply hmin0 j (by omega)
        exact pre_drop_transfer (attr ++ ['=']) (a ++ attr ++ ['='] ++ val ++ t) t0 j
          (i + (attr ++ ['=']).length) htake_eq (by omega) hpj
      have hra2 : replaceAttr L1 attr val = L1 := by
        rw [hL1def]
        exact replaceAttr_decomp a val t attr val hminL1 hval1 ht
      rw [hout1, processNodes_single L1 _ hL1trim hL1ne, hop, hra2, hap, if_pos hcont1]
    · have hcf : containsSub (attr ++ ['=']) t0 = false := by
        revert hc; cases containsSub (attr ++ ['=']) t0 <;> simp
      have hor : overridePass [(k, [val])] t0 = t0 := by
        rw [hop]; exact replaceAttr_of_not_contains t0 attr val hcf
      set L1 := t0 ++ [','] ++ attr ++ ['='] ++ val with hL1def
      have hout1 : processNodes [line] [(k, [val])] = [L1] := by
        rw [hfirst, hor, hap, if_neg hc]
      have hshape : L1 = (t0 ++ [',']) ++ attr ++ ['='] ++ val ++ [] := by
        rw [hL1def]; simp [List.append_assoc]
      have hminB : ∀ j, j < (t0 ++ [',']).length →
          ¬ (attr ++ ['=']) <+: ((t0 ++ [',']) ++ attr ++ ['='] ++ val ++ []).drop j := by
        intro j hj hpj
        have hj2 : j ≤ t0.length := by
          simp at hj; omega
        have hre : (t0 ++ [',']) ++ attr ++ ['='] ++ val ++ []
            = t0 ++ (',' :: (attr ++ ['='] ++ val)) := by
          simp [List.append_assoc]
        rw [hre, List.drop_append_of_le_length hj2] at hpj
        have hp2 := pre_of_append_sep _ _ _ ',' hpj hcpre
        have hcc := containsSub_of_pre_drop (attr ++ ['=']) t0 j hp2
        rw [hcf] at hcc
        simp at hcc
      have hra2 : replaceAttr L1 attr val = L1 := by
        rw [hshape]
        exact replaceAttr_decomp (t0 ++ [',']) val [] attr val hminB hval1 (Or.inl rfl)
      have hcont1 : containsSub (attr ++ ['=']) L1 = true := by
        apply containsSub_of_pre_drop _ _ (t0 ++ [',']).length
        have hre : L1 = (t0 ++ [',']) ++ ((attr ++ ['=']) ++ val) := by
          rw [hL1def]; simp [List.append_assoc]
        rw [hre, List.drop_left]
        exact ⟨val, rfl⟩
      have hL1trim : trimSpace L1 = L1 := by
        apply trimSpace_eq_self
        · intro c hcH
          have h1 : L1.head? = t0.head? := by
            have hre : L1 = t0 ++ ([','] ++ attr ++ ['='] ++ val) := by
              rw [hL1def]; simp [List.append_assoc]
            rw [hre]
            exact head_of_append_ne _ _ h0
          exact ht0h c (by rw [← h1]; exact hcH)
        · intro c hcL
          by_cases hv : val = []
          · have h1 : L1.getLast? = some '=' := by
              rw [hL1def, hv, List.append_nil]
              rw [last_of_append_ne _ _ (by simp : (['='] : Str) ≠ [])]
              rfl
            have hce : '=' = c := by
              rw [h1] at hcL
              exact (Option.some.injEq _ _).mp hcL
            rw [← hce]; decide
          · have h1 : L1.getLast? = val.getLast? := by
              rw [hL1def]
              exact last_of_append_ne _ _ hv
            exact (head_last_of_trim_eq val hval2).2 c (by rw [← h1]; exact hcL)
      have hL1ne : L1 ≠ [] := by
        intro h0x
        have hmm : (',' : Char) ∈ L1 := by rw [hL1def]; simp
        rw [h0x] at hmm
        simp at hmm
      rw [hout1, processNodes_single L1 _ hL1trim hL1ne, hop, hra2, hap, if_pos hcont1]

/-- Witness for C6 (amended): the single-parameter idempotence applied at a
concrete line. -/
theorem c6_idempotent_amended_witness :
    processNodes (processNodes ["X = ss,1.1.1.1,443, a=1".toList]
        [("udp".toList, [['1']])]) [("udp".toList, [['1']])]
      = processNodes ["X = ss,1.1.1.1,443, a=1".toList] [("udp".toList, [['1']])] :=
  c6_idempotent_amended ("X = ss,1.1.1.1,443, a=1".toList) ("udp".toList)
    ("udp-relay".toList) ['1'] (by decide) (by decide) (by decide)

/-! ## update.go — proxy-line extraction -/

/-- The `[Proxy]` section marker. -/
def proxyMark : Str := "[Proxy]".toList

/-- An opening bracket (any `[section]` header). -/
def bracketMark : Str := "[".toList

/-- The per-line filter of `extractProxyLines`: drop `#` comments and lines
containing `reject` or `direct`. -/
def keepLine (t : Str) : Bool :=
  !(decide (("#".toList) <+: t)) && !(containsSub ("reject".toList) t)
    && !(containsSub ("direct".toList) t)

/-- The loop of `extractProxyLines` (update.go): `inP` is the `inProxy`
flag; a line whose trimmed form starts with `[Proxy]` (re)enters the
section; inside the section a blank line or any other `[` line stops the
whole scan. -/
def extractGo (inP : Bool) : List Str → List Str
  | [] => []
  | l :: rest =>
    let t := trimSpace l
    if proxyMark <+: t then extractGo true rest
    else if inP then
      if t = [] ∨ bracketMark <+: t then []
      else if keepLine t then t :: extractGo inP rest
      else extractGo inP rest
    else extractGo inP rest

/-- `extractProxyLines` (update.go). -/
def extractProxyLines (lines : List Str) : List Str :=
  extractGo false lines

/-- The collection loop stated from the amended specification: after the
`[Proxy]` marker, every subsequent line that is not itself a `[Proxy]`
marker is collected when it passes the comment/reject/direct filter, and
collection stops at the first blank line, at any other `[section]` header,
or at the end of input. -/
def collectAmended : List Str → List Str
  | [] => []
  | t :: rest =>
    if proxyMark <+: t then collectAmended rest
    else if t = [] ∨ bracketMark <+: t then []
    else if keepLine t then t :: collectAmended rest
    else collectAmended rest

/-- The amended specification of the line extractor: trim all lines, skip
to the first `[Proxy]`-prefixed line, then run the collection loop. -/
def extractAmended (lines : List Str) : List Str :=
  match (lines.map trimSpace).dropWhile (fun t => !(decide (proxyMark <+: t))) with
  | [] => []
  | _ :: rest => collectAmended rest

/-- **C3 counterexample** — a proxy line that appears after a blank line
inside the `[Proxy]` section is not extracted: the blank line terminates
the scan. -/
theorem c3_counterexample :
    "b = ss,3,4".toList ∉ extractProxyLines
      ["[Proxy]".toList, "a = ss,1,2".toList, "".toList, "b = ss,3,4".toList] := by
  decide

theorem extractGo_true_eq (ls : List Str) :
    extractGo true ls = collectAmended (ls.map trimSpace) := by
  induction ls with
  | nil => rfl
  | cons l rest ih =>
    by_cases h1 : proxyMark <+: trimSpace l
    · simp [extractGo, collectAmended, h1, ih]
    · by_cases h2 : trimSpace l = [] ∨ bracketMark <+: trimSpace l
      · simp [extractGo, collectAmended, h1, h2]
      · by_cases h3 : keepLine (trimSpace l) = true
        · simp [extractGo, collectAmended, h1, h2, h3, ih]
        · have h3f : keepLine (trimSpace l) = false := by
            revert h3; cases keepLine (trimSpace l) <;> simp
          simp [extractGo, collectAmended, h1, h2, h3f, ih]

/-- **C3 (amended)** — `extractProxyLines` collects, after the first
`[Proxy]` marker, every subsequent line that passes the
comment/reject/direct filter, skipping further `[Proxy]` markers, and
stopping at the first blank line, at any other `[section]` header, or at
the end of input.  (The original claim is wrong exactly in that a blank
line inside the section does terminate collection.) -/
theorem c3_extract_amended (lines : List Str) :
    extractProxyLines lines = extractAmended lines := by
  unfold extractProxyLines
  induction lines with
  | nil => rfl
  | cons l rest ih =>
    by_cases h1 : proxyMark <+: trimSpace l
    · have lhs : extractGo false (l :: rest) = extractGo true rest := by
        simp [extractGo, h1]
      have rhs : extractAmended (l :: rest) = collectAmended (rest.map trimSpace) := by
        unfold extractAmended
        rw [List.map_cons, List.dropWhile_cons]
        simp [h1]
      rw [lhs, rhs, extractGo_true_eq]
    · have lhs : extractGo false (l :: rest) = extractGo false rest := by
        simp [extractGo, h1]
      have rhs : extractAmended (l :: rest) = extractAmended rest := by
        unfold extractAmended
        rw [List.map_cons, List.dropWhile_cons]
        simp [h1]
      rw [lhs, rhs, ih]

/-! ## egress.go — trace-body parsing and the flag emoji -/

/-- The `loc=` line marker of the Cloudflare trace body. -/
def locMark : Str := "loc=".toList

/-- The scan of `getProxyISO` (egress.go) over the split body: the first
line with prefix `loc=` yields everything after the prefix
(`strings.TrimPrefix`). -/
def findLoc : List Str → Option Str
  | [] => none
  | l :: rest => if locMark <+: l then some (l.drop locMark.length) else findLoc rest

/-- The body-parsing core of `getProxyISO` (egress.go): split on newlines,
find the `loc=` line.  `none` models the `无法获取 ISO 代码` error. -/
def parseTraceISO (body : Str) : Option Str :=
  findLoc (splitC '\n' body)

theorem splitC_no_sep (c : Char) (l : Str) (h : c ∉ l) : splitC c l = [l] := by
  induction l with
  | nil => rfl
  | cons d r ih =>
    have hdc : ¬ (d = c) := fun h0 => h (by simp [h0])
    have hr : splitC c r = [r] := ih (fun hm => h (by simp [hm]))
    simp [splitC, hdc, hr]

theorem splitC_append_sep (c : Char) (x y : Str) (hx : c ∉ x) :
    splitC c (x ++ c :: y) = x :: splitC c y := by
  induction x with
  | nil => simp [splitC]
  | cons d r ih =>
    have hdc : ¬ (d = c) := fun h0 => hx (by simp [h0])
    have hr := ih (fun hm => hx (by simp [hm]))
    simp [splitC, hdc, hr]

theorem splitC_joinC_pre (c : Char) :
    ∀ (a : List Str) (L : Str) (b : List Str), (∀ l ∈ a, c ∉ l) → c ∉ L →
      ∃ rest, splitC c (joinC c (a ++ L :: b)) = a ++ L :: rest := by
  intro a
  induction a with
  | nil =>
    intro L b hA hL
    cases b with
    | nil => exact ⟨[], by simp [joinC, splitC_no_sep c L hL]⟩
    | cons b1 b2 =>
      have hj : joinC c (L :: b1 :: b2) = L ++ c :: joinC c (b1 :: b2) := rfl
      rw [List.nil_append, hj, splitC_append_sep c L _ hL]
      exact ⟨splitC c (joinC c (b1 :: b2)), rfl⟩
  | cons a1 a2 ih =>
    intro L b hA hL
    have hj : joinC c (a1 :: (a2 ++ L :: b)) = a1 ++ c :: joinC c (a2 ++ L :: b) := by
      cases hx : a2 ++ L :: b with
      | nil => simp at hx
      | cons y ys => rfl
    rw [List.cons_append, hj, splitC_append_sep c a1 _ (hA a1 (by simp))]
    obtain ⟨rest, hrest⟩ := ih L b (fun l hl => hA l (by simp [hl])) hL
    exact ⟨rest, by rw [hrest, List.cons_append]⟩

theorem findLoc_prepend (a : List Str) (rest : List Str)
    (ha : ∀ l ∈ a, ¬ locMark <+: l) : findLoc (a ++ rest) = findLoc rest := by
  induction a with
  | nil => rfl
  | cons x a2 ih =>
    have hx : ¬ locMark <+: x := ha x (by simp)
    rw [List.cons_append]
    rw [findLoc.eq_def]
    simp only [hx, if_false]
    exact ih (fun l hl => ha l (by simp [hl]))

/-- **C8 counterexample** — the probe does not return "exactly the two
characters" after `loc=`: on the body `loc=ABC` it returns the whole
three-character remainder `ABC`. -/
theorem c8_counterexample :
    parseTraceISO ("loc=ABC".toList) = some ("ABC".toList)
    ∧ ("ABC".toList).length ≠ 2 := by
  decide

/-- **C8 (amended)** — `getProxyISO` parses the body line by line, locates
the first line prefixed `loc=`, and returns the entire remainder of that
line after the prefix (however long it is), for every body. -/
theorem c8_trace_iso_amended (a b : List Str) (r : Str)
    (ha : ∀ l ∈ a, ¬ locMark <+: l ∧ '\n' ∉ l) (hr : '\n' ∉ r) :
    parseTraceISO (joinC '\n' (a ++ (locMark ++ r) :: b)) = some r := by
  unfold parseTraceISO
  have hLnc : '\n' ∉ locMark ++ r := by
    intro hm
    rcases List.mem_append.mp hm with h | h
    · revert h; decide
    · exact hr h
  obtain ⟨rest, hsp⟩ :=
    splitC_joinC_pre '\n' a (locMark ++ r) b (fun l hl => (ha l hl).2) hLnc
  rw [hsp, findLoc_prepend a _ (fun l hl => (ha l hl).1)]
  rw [findLoc.eq_def]
  simp only [List.prefix_append, if_true, List.drop_left]

/-- Witness for C8 (amended): a concrete three-line trace body. -/
theorem c8_trace_iso_amended_witness :
    parseTraceISO (joinC '\n'
        (["ts=123".toList] ++ (locMark ++ "HK".toList) :: ["colo=X".toList]))
      = some ("HK".toList) :=
  c8_trace_iso_amended ["ts=123".toList] ["colo=X".toList] ("HK".toList)
    (by decide) (by decide)

/-- The override table of `getEmojiByISO` (egress.go); note `TW → 🌏`. -/
def emojiMap : List (Str × Str) :=
  [("US".toList, "🇺🇸".toList), ("HK".toList, "🇭🇰".toList),
   ("JP".toList, "🇯🇵".toList), ("SG".toList, "🇸🇬".toList),
   ("KR".toList, "🇰🇷".toList), ("TW".toList, "🌏".toList),
   ("GB".toList, "🇬🇧".toList), ("DE".toList, "🇩🇪".toList),
   ("FR".toList, "🇫🇷".toList), ("CA".toList, "🇨🇦".toList),
   ("AU".toList, "🇦🇺".toList), ("NL".toList, "🇳🇱".toList)]

/-- `calculateEmojiFromISO` (egress.go): regional-indicator arithmetic on
the first two characters.  The Go code indexes `iso[0]` and `iso[1]`
without any bounds check, so an input shorter than two characters panics
at runtime — modelled by `none`. -/
def calculateEmojiFromISO (iso : Str) : Option Str :=
  match iso with
  | c1 :: c2 :: _ =>
    some [Char.ofNat (((c1.toNat : Int) - 65 + 0x1F1E6).toNat),
          Char.ofNat (((c2.toNat : Int) - 65 + 0x1F1E6).toNat)]
  | _ => none

/-- `getEmojiByISO` (egress.go): the override table first, then the
regional-indicator computation. -/
def getEmojiByISO (iso : Str) : Option Str :=
  match emojiMap.find? (fun kv => decide (kv.1 = iso)) with
  | some kv => some kv.2
  | none => calculateEmojiFromISO iso

/-- **C10** — the byte accesses of `calculateEmojiFromISO` are *not* in
bounds for every input: a trace body with the bare line `loc=` yields the
empty ISO, which is absent from the override table, and the ensuing
`iso[0]` access is out of range (a Go runtime panic, modelled `none`); a
one-character ISO such as `Q` panics on `iso[1]` likewise. -/
theorem c10_emoji_oob :
    parseTraceISO ("loc=".toList) = some []
    ∧ getEmojiByISO [] = none
    ∧ getEmojiByISO ['Q'] = none := by
  decide

/-! ## main.go — token bootstrap -/

/-- The sixteen lowercase hex digits. -/
def hexDigits : Str := "0123456789abcdef".toList

/-- `hex.EncodeToString`: two lowercase hex digits per byte. -/
def hexEncode : List Nat → Str
  | [] => []
  | b :: rest =>
    hexDigits.getD (b / 16 % 16) '0' :: hexDigits.getD (b % 16) '0' :: hexEncode rest

/-- `strings.ToLower`, ASCII letters. -/
def toLowerChar (c : Char) : Char :=
  if 'A' ≤ c ∧ c ≤ 'Z' then Char.ofNat (c.toNat + 32) else c

def toLowerStr (l : Str) : Str := l.map toLowerChar

/-- `genToken` (main.go): hex-encode `n/2` random bytes, lower-case, take
the first `n` characters. -/
def genToken (n : Nat) (bytes : List Nat) : Str :=
  (toLowerStr (hexEncode (bytes.take (n / 2)))).take n

/-- `getToken` (main.go): the environment variable wins (no file write);
otherwise the token file is read and trimmed; otherwise a 32-character
token is generated and written.  The result pairs the returned token with
the write action: `some (contents, mode)` when a file is written. -/
def getToken (env : Str) (file : Option Str) (bytes : List Nat) :
    Str × Option (Str × Nat) :=
  if env ≠ [] then (env, none)
  else
    match file with
    | some data => (trimSpace data, none)
    | none =>
      let tok := genToken 32 bytes
      (tok, some (tok, 0o644))

theorem hexEncode_length (bs : List Nat) : (hexEncode bs).length = 2 * bs.length := by
  induction bs with
  | nil => rfl
  | cons b rest ih => simp [hexEncode, ih]; omega

theorem hexEncode_mem (bs : List Nat) (c : Char) (h : c ∈ hexEncode bs) :
    c ∈ hexDigits := by
  induction bs with
  | nil => simp [hexEncode] at h
  | cons b rest ih =>
    have hlt : ∀ i, i < 16 → hexDigits.getD i '0' ∈ hexDigits := by decide
    rcases List.mem_cons.mp h with rfl | h2
    · exact hlt _ (Nat.mod_lt _ (by omega))
    · rcases List.mem_cons.mp h2 with rfl | h3
      · exact hlt _ (Nat.mod_lt _ (by omega))
      · exact ih h3

/-- **C9 counterexample** — the generated token file is written with mode
`0644`, not `0640` as the claim states. -/
theorem c9_counterexample :
    ((getToken [] none (List.replicate 16 0)).2.map Prod.snd) = some 0o644
    ∧ (0o644 : Nat) ≠ 0o640 := by
  decide

/-- **C9 (amended)** — with `TOKEN` absent and no token file, `getToken`
generates a token of exactly 32 lowercase hexadecimal characters and
persists exactly that token to the token file — with file mode `0644`
(the claim's `640` is wrong). -/
theorem c9_token_amended (bytes : List Nat) (hlen : 16 ≤ bytes.length) :
    (getToken [] none bytes).2 = some ((getToken [] none bytes).1, 0o644)
    ∧ (getToken [] none bytes).1.length = 32
    ∧ ∀ c ∈ (getToken [] none bytes).1, c ∈ hexDigits := by
  have hlen16 : (bytes.take 16).length = 16 := by
    rw [List.length_take]
    omega
  have henc : (hexEncode (bytes.take 16)).length = 32 := by
    rw [hexEncode_length, hlen16]
  have hfix : ∀ c ∈ hexDigits, toLowerChar c = c := by decide
  have hlow : toLowerStr (hexEncode (bytes.take 16)) = hexEncode (bytes.take 16) := by
    unfold toLowerStr
    have hmap : (hexEncode (bytes.take 16)).map toLowerChar
        = (hexEncode (bytes.take 16)).map id := by
      apply List.map_congr_left
      intro c hc
      exact hfix c (hexEncode_mem _ c hc)
    rw [hmap, List.map_id]
  have h162 : (32 : Nat) / 2 = 16 := by norm_num
  have hgen : genToken 32 bytes = hexEncode (bytes.take 16) := by
    unfold genToken
    rw [h162, hlow, List.take_of_length_le (by rw [henc])]
  have hfst : (getToken [] none bytes).1 = genToken 32 bytes := by
    simp [getToken]
  have hsnd : (getToken [] none bytes).2 = some (genToken 32 bytes, 0o644) := by
    simp [getToken]
  refine ⟨?_, ?_, ?_⟩
  · rw [hsnd, hfst]
  · rw [hfst, hgen, henc]
  · intro c hc
    rw [hfst, hgen] at hc
    exact hexEncode_mem _ c hc

/-- Witness for C9 (amended): sixteen zero bytes. -/
theorem c9_token_amended_witness :
    (getToken [] none (List.replicate 16 0)).2
      = some ((getToken [] none (List.replicate 16 0)).1, 0o644)
    ∧ (getToken [] none (List.replicate 16 0)).1.length = 32
    ∧ ∀ c ∈ (getToken [] none (List.replicate 16 0)).1, c ∈ hexDigits :=
  c9_token_amended (List.replicate 16 0) (by decide)

/-! ## update.go — the node record, parsing and rendering -/

/-- The `Node` record (update.go).  `typ` is the Go field `Type`. -/
structure Node where
  OriginName : Str
  typ : Str
  Server : Str
  Port : Str
  Params : List (Str × Str)
  ParamString : Str
  Source : Str
  ISO : Str
  Emoji : Str
deriving DecidableEq, Repr

/-- Go map read, `""` when the key is absent. -/
def getParamD (ps : List (Str × Str)) (k : Str) : Str :=
  ((ps.find? (fun kv => decide (kv.1 = k))).map Prod.snd).getD []

/-- Go map assignment: overwrite the key when present, else insert. -/
def setParam (ps : List (Str × Str)) (k v : Str) : List (Str × Str) :=
  if ps.any (fun kv => decide (kv.1 = k)) then
    ps.map (fun kv => if kv.1 = k then (k, v) else kv)
  else ps ++ [(k, v)]

/-- One step of the parameter loop of `parseNodeLine`: a trimmed `k=v`
token updates the map and is appended (in original order) to the list
joined into `ParamString`; anything without `=` is skipped. -/
def parseStep (acc : List (Str × Str) × List Str) (p : Str) :
    List (Str × Str) × List Str :=
  match splitN2 '=' (trimSpace p) with
  | [k, v] => (setParam acc.1 k v, acc.2 ++ [trimSpace p])
  | _ => acc

/-- The body of `parseNodeLine` once the line has split into name part
`p0` and node part `p1`: split `p1` by commas; the first three fields are
type, server, port; the rest feed `parseStep`. -/
def parseBody (p0 p1 airport : Str) : Option Node :=
  let mainParts := splitC ',' p1
  if mainParts.length < 3 then none
  else
    let pp := (mainParts.drop 3).foldl parseStep ([], [])
    some { OriginName := trimSpace p0
           typ := trimSpace (mainParts.getD 0 [])
           Server := trimSpace (mainParts.getD 1 [])
           Port := trimSpace (mainParts.getD 2 [])
           Params := pp.1
           ParamString := joinC ',' pp.2
           Source := airport
           ISO := []
           Emoji := [] }

/-- `parseNodeLine` (update.go): split at the first `=`, then parse the
node body; a line with no `=` or fewer than three comma fields is
rejected. -/
def parseNodeLine (line : Str) (airport : Str) : Option Node :=
  match splitN2 '=' line with
  | [p0, p1] => parseBody p0 p1 airport
  | _ => none

/-- One step of the `originalParams` scan of `formatNode`: collect the key
of every `k=v` token. -/
def okStep (acc : List Str) (p : Str) : List Str :=
  match splitN2 '=' (trimSpace p) with
  | [k, _v] => acc ++ [k]
  | _ => acc

/-- The keys present in the original parameter string (`originalParams` in
`formatNode`). -/
def originalKeys (params0 : Str) : List Str :=
  if params0 = [] then []
  else (splitC ',' params0).foldl okStep []

/-- `formatNode` (part_005 update.go variant): re-render a node from its
original parameter string; parameters whose key is absent from it are
appended at the end. -/
def formatNode (n : Node) (newName : Str) : Str :=
  let params := n.Params.foldl
    (fun ps kv =>
      if (originalKeys n.ParamString).any (fun x => decide (x = kv.1)) then ps
      else (if ps = [] then ps else ps ++ [',']) ++ kv.1 ++ ['='] ++ kv.2)
    n.ParamString
  newName ++ " = ".toList ++ n.typ ++ [','] ++ n.Server ++ [','] ++ n.Port
    ++ ", ".toList ++ params

/-! ### Toolkit for the round-trip proof -/

/-- The key of a `k=v` token. -/
def keyOf (c : Str) : Str := c.takeWhile (fun ch => !(ch = '=' : Bool))

theorem splitN2_pos (sep : Char) (l : Str) (h : sep ∈ l) :
    splitN2 sep l
      = [l.takeWhile (fun c => !(c = sep : Bool)),
         l.drop ((l.takeWhile (fun c => !(c = sep : Bool))).length + 1)] := by
  unfold splitN2
  rw [if_pos h]

theorem splitN2_neg (sep : Char) (l : Str) (h : sep ∉ l) :
    splitN2 sep l = [l] := by
  unfold splitN2
  rw [if_neg h]

theorem takeWhile_append_sep (sep : Char) (y : Str) :
    ∀ (x : Str), sep ∉ x →
      (x ++ sep :: y).takeWhile (fun c => !(c = sep : Bool)) = x := by
  intro x
  induction x with
  | nil => intro hx; simp [List.takeWhile_cons]
  | cons d r ih =>
    intro hx
    have hd : ¬ (d = sep) := fun h0 => hx (by simp [h0])
    have hr := ih (fun hm => hx (by simp [hm]))
    simp [List.takeWhile_cons, hd, hr]

theorem splitN2_first (sep : Char) (x y : Str) (hx : sep ∉ x) :
    splitN2 sep (x ++ sep :: y) = [x, y] := by
  rw [splitN2_pos sep _ (by simp), takeWhile_append_sep sep y x hx]
  have : x ++ sep :: y = (x ++ [sep]) ++ y := by simp
  rw [this]
  have hlen : x.length + 1 = (x ++ [sep]).length := by simp
  rw [hlen, List.drop_left]

theorem splitC_ne_nil (sep : Char) (l : Str) : splitC sep l ≠ [] := by
  cases l with
  | nil => simp [splitC]
  | cons c rest =>
    unfold splitC
    by_cases h : c = sep
    · simp [h]
    · simp only [h, if_false]
      cases hs : splitC sep rest <;> simp

theorem splitC_cons_ne (sep d : Char) (l : Str) (hd : ¬ (d = sep)) (h0 : Str)
    (tl : List Str) (hs : splitC sep l = h0 :: tl) :
    splitC sep (d :: l) = (d :: h0) :: tl := by
  unfold splitC
  rw [if_neg hd, hs]

theorem joinC_splitC (sep : Char) : ∀ (l : Str), joinC sep (splitC sep l) = l := by
  intro l
  induction l with
  | nil => rfl
  | cons c rest ih =>
    by_cases h : c = sep
    · subst h
      have h1 : splitC c (c :: rest) = [] :: splitC c rest := by
        simp [splitC]
      rw [h1]
      cases hs : splitC c rest with
      | nil => exact absurd hs (splitC_ne_nil c rest)
      | cons h0 tl =>
        have : joinC c ([] :: h0 :: tl) = [] ++ c :: joinC c (h0 :: tl) := rfl
        rw [this, List.nil_append, ← hs, ih]
    · cases hs : splitC sep rest with
      | nil => exact absurd hs (splitC_ne_nil sep rest)
      | cons h0 tl =>
        rw [splitC_cons_ne sep c rest h h0 tl hs]
        cases tl with
        | nil =>
          have h2 : joinC sep [c :: h0] = c :: h0 := rfl
          rw [h2]
          have h3 : joinC sep [h0] = h0 := rfl
          rw [hs, h3] at ih
          rw [ih]
        | cons t1 t2 =>
          have h2 : joinC sep ((c :: h0) :: t1 :: t2)
              = (c :: h0) ++ sep :: joinC sep (t1 :: t2) := rfl
          rw [h2]
          have h3 : joinC sep (h0 :: t1 :: t2) = h0 ++ sep :: joinC sep (t1 :: t2) := rfl
          rw [hs, h3] at ih
          rw [List.cons_append, ih]

theorem trimSpace_cons_space (l : Str) : trimSpace (' ' :: l) = trimSpace l := by
  unfold trimSpace
  rw [List.dropWhile_cons, if_pos (by decide)]

theorem trimSpace_append_space (l : Str) : trimSpace (l ++ [' ']) = trimSpace l := by
  unfold trimSpace
  cases hD : l.dropWhile isSpaceC with
  | nil =>
    have hall : ∀ c ∈ l, isSpaceC c = true := List.dropWhile_eq_nil_iff.mp hD
    have hall2 : ∀ c ∈ l ++ [' '], isSpaceC c = true := by
      intro c hc
      rcases List.mem_append.mp hc with h | h
      · exact hall c h
      · simp at h
        rw [h]
        decide
    have hD2 : (l ++ [' ']).dropWhile isSpaceC = [] :=
      List.dropWhile_eq_nil_iff.mpr hall2
    rw [hD2]
  | cons d D =>
    have h2 : (l ++ [' ']).dropWhile isSpaceC = (d :: D) ++ [' '] := by
      rw [List.dropWhile_append, hD]
      simp
    rw [h2]
    congr 1
    have h4 : ((d :: D) ++ [' ']).reverse = ' ' :: (d :: D).reverse := by
      simp
    rw [h4, List.dropWhile_cons, if_pos (by decide)]

theorem foldl_no_change {α β : Type} (f : β → α → β) (s : β) :
    ∀ (l : List α), (∀ x ∈ l, f s x = s) → l.foldl f s = s := by
  intro l
  induction l with
  | nil => intro h; rfl
  | cons x t ih =>
    intro h
    rw [List.foldl_cons, h x (by simp)]
    exact ih (fun y hy => h y (by simp [hy]))

theorem formatNode_no_append (n : Node) (name : Str)
    (hkeys : ∀ kv ∈ n.Params,
      (originalKeys n.ParamString).any (fun x => decide (x = kv.1)) = true) :
    formatNode n name = name ++ " = ".toList ++ n.typ ++ [','] ++ n.Server
      ++ [','] ++ n.Port ++ ", ".toList ++ n.ParamString := by
  unfold formatNode
  have h1 : n.Params.foldl
      (fun ps kv =>
        if (originalKeys n.ParamString).any (fun x => decide (x = kv.1)) then ps
        else (if ps = [] then ps else ps ++ [',']) ++ kv.1 ++ ['='] ++ kv.2)
      n.ParamString = n.ParamString := by
    apply foldl_no_change
    intro kv hkv
    rw [if_pos (hkeys kv hkv)]
  rw [h1]

theorem setParam_keys (ps : List (Str × Str)) (k v : Str) :
    ∀ kv ∈ setParam ps k v, kv.1 ∈ ps.map Prod.fst ∨ kv.1 = k := by
  intro kv hkv
  unfold setParam at hkv
  by_cases h : ps.any (fun kv2 => decide (kv2.1 = k)) = true
  · rw [if_pos h] at hkv
    obtain ⟨x, hx, hfx⟩ := List.mem_map.mp hkv
    by_cases h2 : x.1 = k
    · right
      rw [if_pos h2] at hfx
      rw [← hfx]
    · left
      rw [if_neg h2] at hfx
      rw [← hfx]
      exact List.mem_map_of_mem Prod.fst hx
  · rw [if_neg h] at hkv
    rcases List.mem_append.mp hkv with h2 | h2
    · left
      exact List.mem_map_of_mem Prod.fst h2
    · right
      simp at h2
      rw [h2]

theorem parseFold_snd (comps : List Str) :
    ∀ acc : List (Str × Str) × List Str,
      (∀ p ∈ comps, '=' ∈ trimSpace p) →
      (comps.foldl parseStep acc).2 = acc.2 ++ comps.map trimSpace := by
  induction comps with
  | nil => intro acc h; simp
  | cons p rest ih =>
    intro acc h
    have hp : '=' ∈ trimSpace p := h p (by simp)
    have hstep : parseStep acc p
        = (setParam acc.1 (keyOf (trimSpace p))
            ((trimSpace p).drop ((keyOf (trimSpace p)).length + 1)),
           acc.2 ++ [trimSpace p]) := by
      unfold parseStep keyOf
      rw [splitN2_pos '=' _ hp]
    rw [List.foldl_cons, hstep, ih _ (fun q hq => h q (by simp [hq]))]
    simp

theorem parseFold_fst (comps : List Str) :
    ∀ acc : List (Str × Str) × List Str,
      (∀ p ∈ comps, '=' ∈ trimSpace p) →
      ∀ kv ∈ (comps.foldl parseStep acc).1,
        kv.1 ∈ acc.1.map Prod.fst ++ comps.map (fun p => keyOf (trimSpace p)) := by
  induction comps with
  | nil =>
    intro acc h kv hkv
    simp only [List.foldl_nil] at hkv
    simp only [List.map_nil, List.append_nil]
    exact List.mem_map_of_mem Prod.fst hkv
  | cons p rest ih =>
    intro acc h kv hkv
    have hp : '=' ∈ trimSpace p := h p (by simp)
    have hstep : parseStep acc p
        = (setParam acc.1 (keyOf (trimSpace p))
            ((trimSpace p).drop ((keyOf (trimSpace p)).length + 1)),
           acc.2 ++ [trimSpace p]) := by
      unfold parseStep keyOf
      rw [splitN2_pos '=' _ hp]
    rw [List.foldl_cons, hstep] at hkv
    have hrec := ih _ (fun q hq => h q (by simp [hq])) kv hkv
    rcases List.mem_append.mp hrec with h2 | h2
    · obtain ⟨kv2, hkv2, hfst⟩ := List.mem_map.mp h2
      rcases setParam_keys _ _ _ kv2 hkv2 with h3 | h3

      · exact List.mem_append.mpr (Or.inl (by rw [← hfst]; exact h3))
      · refine List.mem_append.mpr (Or.inr ?_)
        rw [List.map_cons]
        rw [← hfst, h3]
        simp
    · refine List.mem_append.mpr (Or.inr ?_)
      rw [List.map_cons]
      simp [h2]

theorem okFold (comps : List Str) :
    ∀ acc : List Str, (∀ p ∈ comps, trimSpace p = p ∧ '=' ∈ p) →
      comps.foldl okStep acc = acc ++ comps.map keyOf := by
  induction comps with
  | nil => intro acc h; simp
  | cons p rest ih =>
    intro acc h
    obtain ⟨ht, he⟩ := h p (by simp)
    have hstep : okStep acc p = acc ++ [keyOf p] := by
      unfold okStep keyOf
      rw [ht, splitN2_pos '=' _ he]
    rw [List.foldl_cons, hstep, ih _ (fun q hq => h q (by simp [hq]))]
    simp

theorem originalKeys_eq (PS : Str) (hPS : PS ≠ [])
    (h : ∀ c ∈ splitC ',' PS, trimSpace c = c ∧ '=' ∈ c) :
    originalKeys PS = (splitC ',' PS).map keyOf := by
  unfold originalKeys
  rw [if_neg hPS, okFold _ [] h, List.nil_append]

/-- **C5** — round trip: for a well-formed node whose parameter keys all
occur in its original parameter string (no keys added after parsing),
parsing the rendered manifest line with `parseNodeLine` and re-rendering
the resulting node with `formatNode` under the same display name
reproduces the line byte for byte. -/
theorem c5_round_trip (n : Node) (name src : Str)
    (hname1 : '=' ∉ name) (hname2 : trimSpace name = name)
    (htyp : trimSpace n.typ = n.typ) (htypc : ',' ∉ n.typ)
    (hsrv : trimSpace n.Server = n.Server) (hsrvc : ',' ∉ n.Server)
    (hport : trimSpace n.Port = n.Port) (hportc : ',' ∉ n.Port)
    (hps : n.ParamString ≠ [] →
        ∀ c ∈ splitC ',' n.ParamString, trimSpace c = c ∧ '=' ∈ c)
    (hkeys : ∀ kv ∈ n.Params,
        (originalKeys n.ParamString).any (fun x => decide (x = kv.1)) = true) :
    ∃ n2, parseNodeLine (formatNode n name) src = some n2
      ∧ formatNode n2 name = formatNode n name := by
  have hL : formatNode n name
      = (name ++ [' ']) ++ '=' :: ((' ' :: n.typ) ++ ',' ::
          (n.Server ++ ',' :: (n.Port ++ ',' :: (' ' :: n.ParamString)))) := by
    rw [formatNode_no_append n name hkeys]
    simp [List.append_assoc]
  have hx0 : '=' ∉ name ++ [' '] := by
    intro hm
    rcases List.mem_append.mp hm with h | h
    · exact hname1 h
    · simp at h
  set p1 := (' ' :: n.typ) ++ ',' ::
      (n.Server ++ ',' :: (n.Port ++ ',' :: (' ' :: n.ParamString))) with hp1def
  have hsplit : splitN2 '=' (formatNode n name) = [name ++ [' '], p1] := by
    rw [hL]
    exact splitN2_first '=' _ _ hx0
  have hstep1 : parseNodeLine (formatNode n name) src
      = parseBody (name ++ [' ']) p1 src := by
    unfold parseNodeLine
    rw [hsplit]
  have hmt : ',' ∉ (' ' :: n.typ) := by
    intro hm
    rcases List.mem_cons.mp hm with h | h
    · simp at h
    · exact htypc h
  have hsp1 : splitC ',' p1
      = (' ' :: n.typ) :: n.Server :: n.Port :: splitC ',' (' ' :: n.ParamString) := by
    rw [hp1def, splitC_append_sep ',' _ _ hmt, splitC_append_sep ',' _ _ hsrvc,
        splitC_append_sep ',' _ _ hportc]
  by_cases hPS0 : n.ParamString = []
  · have hsp2 : splitC ',' (' ' :: n.ParamString) = [[' ']] := by
      rw [hPS0]
      decide
    have hMP : splitC ',' p1 = [(' ' :: n.typ), n.Server, n.Port, [' ']] := by
      rw [hsp1, hsp2]
    have hpp : ([[' ']] : List Str).foldl parseStep ([], []) = ([], []) := by decide
    have hbody : parseBody (name ++ [' ']) p1 src = some
        { OriginName := name, typ := n.typ, Server := n.Server, Port := n.Port,
          Params := [], ParamString := [], Source := src, ISO := [], Emoji := [] } := by
      unfold parseBody
      rw [hMP]
      rw [if_neg (by simp)]
      simp only [List.getD_cons_zero, List.getD_cons_succ, List.drop_succ_cons,
        List.drop_zero]
      rw [hpp, trimSpace_append_space, hname2, trimSpace_cons_space, htyp, hsrv, hport]
      rfl
    refine ⟨_, hstep1.trans hbody, ?_⟩
    rw [formatNode_no_append _ name (by intro kv hkv; simp at hkv),
      formatNode_no_append n name hkeys, hPS0]
  · obtain ⟨d0, ds, hD⟩ : ∃ d0 ds, splitC ',' n.ParamString = d0 :: ds := by
      cases hE : splitC ',' n.ParamString with
      | nil => exact absurd hE (splitC_ne_nil ',' n.ParamString)
      | cons a b => exact ⟨a, b, rfl⟩
    have hps2 := hps hPS0
    have hsp2 : splitC ',' (' ' :: n.ParamString) = (' ' :: d0) :: ds :=
      splitC_cons_ne ',' ' ' _ (by decide) d0 ds hD
    have hMP : splitC ',' p1
        = (' ' :: n.typ) :: n.Server :: n.Port :: (' ' :: d0) :: ds := by
      rw [hsp1, hsp2]
    have htrimd0 : trimSpace (' ' :: d0) = d0 := by
      rw [trimSpace_cons_space]
      exact (hps2 d0 (by rw [hD]; simp)).1
    have htrimds : ∀ p ∈ ds, trimSpace p = p := fun p hp =>
      (hps2 p (by rw [hD]; simp [hp])).1
    have hmemtrim : ∀ p ∈ (' ' :: d0) :: ds, '=' ∈ trimSpace p := by
      intro p hp
      rcases List.mem_cons.mp hp with rfl | hp2
      · rw [htrimd0]
        exact (hps2 d0 (by rw [hD]; simp)).2
      · rw [htrimds p hp2]
        exact (hps2 p (by rw [hD]; simp [hp2])).2
    have hmapds : ds.map trimSpace = ds := by
      have h1 : ds.map trimSpace = ds.map id :=
        List.map_congr_left (fun p hp => htrimds p hp)
      rw [h1, List.map_id]
    have hmaptrim : ((' ' :: d0) :: ds).map trimSpace = d0 :: ds := by
      rw [List.map_cons, htrimd0, hmapds]
    have hsnd2 : (((' ' :: d0) :: ds).foldl parseStep ([], [])).2 = d0 :: ds := by
      rw [parseFold_snd ((' ' :: d0) :: ds) ([], []) hmemtrim, List.nil_append,
        hmaptrim]
    have hPS2 : joinC ',' (((' ' :: d0) :: ds).foldl parseStep ([], [])).2
        = n.ParamString := by
      rw [hsnd2, ← hD, joinC_splitC]
    have hkeysn2 : ∀ kv ∈ (((' ' :: d0) :: ds).foldl parseStep ([], [])).1,
        (originalKeys n.ParamString).any (fun x => decide (x = kv.1)) = true := by
      intro kv hkv
      have h1 := parseFold_fst ((' ' :: d0) :: ds) ([], []) hmemtrim kv hkv
      simp only [List.map_nil, List.nil_append] at h1
      have h2 : ((' ' :: d0) :: ds).map (fun p => keyOf (trimSpace p))
          = (d0 :: ds).map keyOf := by
        rw [List.map_cons, List.map_cons, htrimd0]
        congr 1
        exact List.map_congr_left (fun p hp => by rw [htrimds p hp])
      rw [h2] at h1
      rw [originalKeys_eq n.ParamString hPS0 hps2, hD, List.any_eq_true]
      exact ⟨kv.1, h1, by simp⟩
    have hbody : parseBody (name ++ [' ']) p1 src = some
        { OriginName := name, typ := n.typ, Server := n.Server, Port := n.Port,
          Params := (((' ' :: d0) :: ds).foldl parseStep ([], [])).1,
          ParamString := n.ParamString, Source := src, ISO := [], Emoji := [] } := by
      unfold parseBody
      rw [hMP]
      rw [if_neg (by simp)]
      simp only [List.getD_cons_zero, List.getD_cons_succ, List.drop_succ_cons,
        List.drop_zero]
      rw [trimSpace_append_space, hname2, trimSpace_cons_space, htyp, hsrv, hport,
        hPS2]
    refine ⟨_, hstep1.trans hbody, ?_⟩
    rw [formatNode_no_append _ name hkeysn2, formatNode_no_append n name hkeys]

/-- A concrete published-form node for the C5 witness. -/
def c5SampleNode : Node :=
  { OriginName := "node1".toList, typ := "ss".toList,
    Server := "1.2.3.4".toList, Port := "443".toList,
    Params := [("encrypt-method".toList, "aes-128-gcm".toList),
               ("password".toList, "p".toList)],
    ParamString := "encrypt-method=aes-128-gcm,password=p".toList,
    Source := "A".toList, ISO := [], Emoji := [] }

/-- Witness for C5: the round trip applied at a concrete node and name. -/
theorem c5_round_trip_witness :
    ∃ n2, parseNodeLine (formatNode c5SampleNode ("A [US]-01".toList))
        ("A".toList) = some n2
      ∧ formatNode n2 ("A [US]-01".toList)
        = formatNode c5SampleNode ("A [US]-01".toList) :=
  c5_round_trip c5SampleNode ("A [US]-01".toList) ("A".toList)
    (by decide) (by decide) (by decide) (by decide) (by decide) (by decide)
    (by decide) (by decide) (by decide) (by decide)

/-! ## part_005 update.go — publishing (`writeNodeConf`) -/

/-- `%02d`. -/
def pad2 (n : Nat) : Str :=
  if n < 10 then '0' :: (Nat.repr n).toList else (Nat.repr n).toList

/-- Character-wise lexicographic `≤` (`sort.Strings`; UTF-8 byte order
coincides with code-point order). -/
def lexLeB : Str → Str → Bool
  | [], _ => true
  | _ :: _, [] => false
  | a :: as, b :: bs => if a = b then lexLeB as bs else decide (a < b)

def insertSorted (x : Str) : List Str → List Str
  | [] => [x]
  | y :: ys => if lexLeB x y then x :: y :: ys else y :: insertSorted x ys

/-- `sort.Strings`, modelled as insertion sort. -/
def sortStrs (l : List Str) : List Str := l.foldr insertSorted []

/-- Distinct group keys (the key set of the Go `groupMap`). -/
def dedupF : List Str → List Str
  | [] => []
  | x :: xs => x :: (dedupF xs).filter (fun y => !(decide (y = x)))

/-- The `Source|ISO` group key. -/
def groupKey (n : Node) : Str := n.Source ++ ['|'] ++ n.ISO

/-- Number a group with ordinal names `<src> [<iso><emoji>]-<jj>`. -/
def fmtGroup : List Node → Nat → List Str
  | [], _ => []
  | n :: rest, j =>
    formatNode n (n.Source ++ " [".toList ++ n.ISO ++ n.Emoji ++ "]-".toList
      ++ pad2 (j + 1)) :: fmtGroup rest (j + 1)

/-- The rendered document of `writeNodeConf` (part_005 update.go): group
by `Source|ISO`, sort the group keys, number within groups in original
order, join with newlines, then the global `=true`/`=false`
substitutions. -/
def renderNodeConf (nodes : List Node) : Str :=
  let keys := sortStrs (dedupF (nodes.map groupKey))
  let lines := keys.foldl (fun acc k =>
    acc ++ fmtGroup (nodes.filter (fun n => decide (groupKey n = k))) 0) []
  replaceEqFalse (replaceEqTrue (joinC '\n' lines))

/-- `writeNodeConf` (part_005 update.go): write the manifest if and only
if the trimmed content is non-empty.  `some content` models the write,
`none` the skip (any pre-existing file stays untouched). -/
def writeNodeConfAct (nodes : List Node) : Option Str :=
  let content := renderNodeConf nodes
  if trimSpace content = [] then none else some content

/-- A concrete surviving node for the write case of C7. -/
def c7SampleNode : Node :=
  { OriginName := "n".toList, typ := "ss".toList, Server := "1.2.3.4".toList,
    Port := "443".toList, Params := [("password".toList, "p".toList)],
    ParamString := "password=p".toList, Source := "A".toList,
    ISO := "US".toList, Emoji := "🇺🇸".toList }

/-- **C7** — `writeNodeConf` writes the manifest if and only if the
rendered document's whitespace-trimmed content is non-empty; in
particular for the empty node list (every source failed) no write occurs,
while a surviving node does produce a write. -/
theorem c7_write_guard :
    (∀ nodes : List Node,
      (writeNodeConfAct nodes).isSome = true
        ↔ trimSpace (renderNodeConf nodes) ≠ [])
    ∧ writeNodeConfAct [] = none
    ∧ writeNodeConfAct [c7SampleNode] = some (renderNodeConf [c7SampleNode]) := by
  refine ⟨?_, by decide, by decide⟩
  intro nodes
  unfold writeNodeConfAct
  by_cases h : trimSpace (renderNodeConf nodes) = []
  · simp [h]
  · simp [h]

/-! ## ingress.go and egress.go — fission, dedup, probe, statistics -/

/-- `needSNI` (ingress.go). -/
def needSNI (typ : Str) : Bool :=
  decide (typ = "trojan".toList) || decide (typ = "vmess".toList)

/-- `uniqueKey` (ingress.go): `type|server|port`. -/
def uniqueKey (n : Node) : Str := n.typ ++ ['|'] ++ n.Server ++ ['|'] ++ n.Port

/-- `isDomain` (ingress.go), parameterised by the external `net.ParseIP`
test `isIPf`. -/
def isDomain (isIPf : Str → Bool) (server : Str) : Bool :=
  !isIPf server && decide ('.' ∈ server)

/-- Per-source counters (`Stat`, update.go). -/
structure Stat where
  total : Nat
  duplicated : Nat
  failed : Nat
deriving DecidableEq, Repr

/-- `AirportStats`: a Go map from airport name to `*Stat`. -/
abbrev Stats := Str → Option Stat

def emptyStats : Stats := fun _ => none

/-- `stat.Total++`, creating the entry when absent (ingress step 1). -/
def bumpTotal (st : Stats) (src : Str) : Stats := fun s =>
  if s = src then
    match st src with
    | none => some { total := 1, duplicated := 0, failed := 0 }
    | some t => some { t with total := t.total + 1 }
  else st s

/-- `stat.Duplicated++`.  The entry always exists in the pipeline (step 1
created it); a missing entry is a no-op in the model. -/
def bumpDup (st : Stats) (src : Str) : Stats := fun s =>
  if s = src then (st src).map (fun t => { t with duplicated := t.duplicated + 1 })
  else st s

/-- `updateFailedCount` (egress.go) / `stat.Failed++` (ingress.go). -/
def bumpFailed (st : Stats) (src : Str) : Stats := fun s =>
  if s = src then (st src).map (fun t => { t with failed := t.failed + 1 })
  else st s

/-- The running state of the ingress loops. -/
structure IngSt where
  nodes : List Node
  used : List Str
  stats : Stats

/-- One IP node (ingress.go, first loop): keep on a fresh dedup key,
otherwise count a duplicate. -/
def ipStep (st : IngSt) (n : Node) : IngSt :=
  if uniqueKey n ∈ st.used then { st with stats := bumpDup st.stats n.Source }
  else { nodes := st.nodes ++ [n], used := uniqueKey n :: st.used, stats := st.stats }

/-- A fission clone of a domain node for one resolved IP, with SNI
backfill for trojan/vmess when `sni` is absent. -/
def fissionNode (isIPf : Str → Bool) (orig : Node) (ip : Str) : Node :=
  let base : Node := { orig with Server := ip }
  if needSNI base.typ && decide (getParamD base.Params ("sni".toList) = [])
      && isDomain isIPf orig.Server then
    { base with Params := setParam base.Params ("sni".toList) orig.Server }
  else base

/-- One clone of the fission loop: keep on a fresh key and set `added`. -/
def cloneStep (isIPf : Str → Bool) (n : Node) (p : IngSt × Bool) (ip : Str) :
    IngSt × Bool :=
  let n2 := fissionNode isIPf n ip
  if uniqueKey n2 ∈ p.1.used then p
  else ({ nodes := p.1.nodes ++ [n2], used := uniqueKey n2 :: p.1.used,
          stats := p.1.stats }, true)

/-- One domain node with its DNS answer (ingress.go, second loop): no
answer counts a failure; otherwise fission every resolved IP, and when no
clone survived dedup count one duplicate. -/
def domStep (isIPf : Str → Bool) (dns : Str → List Str) (st : IngSt) (n : Node) :
    IngSt :=
  let ips := dns n.Server
  if ips = [] then { st with stats := bumpFailed st.stats n.Source }
  else
    let r := ips.foldl (cloneStep isIPf n) (st, false)
    if r.2 then r.1 else { r.1 with stats := bumpDup r.1.stats n.Source }

/-- `ingress` (ingress.go): count every node into its source's `Total`,
split IP nodes from domain nodes, dedup the IP nodes, then process each
domain node with its DNS answer (worker-pool results serialised in task
order). -/
def ingressModel (intake : List Node) (isIPf : Str → Bool)
    (dns : Str → List Str) : IngSt :=
  let stats1 := intake.foldl (fun st n => bumpTotal st n.Source) emptyStats
  let ipNodes := intake.filter (fun n => isIPf n.Server)
  let domainNodes := intake.filter (fun n => !isIPf n.Server)
  let afterIP := ipNodes.foldl ipStep { nodes := [], used := [], stats := stats1 }
  domainNodes.foldl (domStep isIPf dns) afterIP

/-- `detectNodeGeo` over the node list (egress.go): the probe oracle
returns the ISO obtained through the node, or `none` when proxy
construction or both trace endpoints fail; a probed ISO on which the
emoji computation panics aborts the whole run (`none`). -/
def detectAll (probe : Node → Option Str) :
    List Node → Stats → Option (List Node × Stats)
  | [], st => some ([], st)
  | n :: rest, st =>
    match probe n with
    | none =>
      (detectAll probe rest (bumpFailed st n.Source)).map
        (fun p => (n :: p.1, p.2))
    | some iso =>
      match getEmojiByISO iso with
      | none => none
      | some em =>
        (detectAll probe rest st).map
          (fun p => ({ n with ISO := iso, Emoji := em } :: p.1, p.2))

/-- Count of a source's nodes in a list. -/
def countSrc (l : List Node) (src : Str) : Nat :=
  l.countP (fun n => decide (n.Source = src))

/-- `egress` (egress.go): probe every node, keep those with both ISO and
emoji set, then overwrite every existing stat's `total` with that source's
surviving count. -/
def egressModel (probe : Node → Option Str) (nodes : List Node) (stats : Stats) :
    Option (List Node × Stats) :=
  (detectAll probe nodes stats).map (fun p =>
    let survivors := p.1.filter (fun n => !n.ISO.isEmpty && !n.Emoji.isEmpty)
    (survivors,
     fun s => (p.2 s).map (fun t => { t with total := countSrc survivors s })))

/-- Ingress followed by egress on a freshly-parsed intake (the stats map
starts empty, as in `updateNodes`). -/
def pipelineIE (intake : List Node) (isIPf : Str → Bool) (dns : Str → List Str)
    (probe : Node → Option Str) : Option (List Node × Stats) :=
  let ing := ingressModel intake isIPf dns
  egressModel probe ing.nodes ing.stats

/-- Projections of the optional stats (0 when the entry is absent). -/
def dupOf (st : Stats) (s : Str) : Nat := ((st s).map Stat.duplicated).getD 0

def failOf (st : Stats) (s : Str) : Nat := ((st s).map Stat.failed).getD 0

def totalOf (st : Stats) (s : Str) : Nat := ((st s).map Stat.total).getD 0

def hasStat (st : Stats) (s : Str) : Prop := (st s).isSome = true

/-! ### Projection lemmas for the statistics counters -/

theorem bumpTotal_dup (st : Stats) (r s : Str) :
    dupOf (bumpTotal st r) s = dupOf st s := by
  unfold dupOf bumpTotal
  by_cases h : s = r
  · subst h
    simp only [if_pos rfl]
    cases st s with
    | none => rfl
    | some t => rfl
  · simp only [if_neg h]

theorem bumpTotal_fail (st : Stats) (r s : Str) :
    failOf (bumpTotal st r) s = failOf st s := by
  unfold failOf bumpTotal
  by_cases h : s = r
  · subst h
    simp only [if_pos rfl]
    cases st s with
    | none => rfl
    | some t => rfl
  · simp only [if_neg h]

theorem bumpTotal_total (st : Stats) (r s : Str) :
    totalOf (bumpTotal st r) s
      = if s = r then totalOf st s + 1 else totalOf st s := by
  unfold totalOf bumpTotal
  by_cases h : s = r
  · subst h
    simp only [if_pos rfl]
    cases st s with
    | none => rfl
    | some t => rfl
  · simp only [if_neg h]

theorem bumpTotal_hasStat_self (st : Stats) (r : Str) :
    hasStat (bumpTotal st r) r := by
  unfold hasStat bumpTotal
  simp only [if_pos rfl]
  cases st r with
  | none => rfl
  | some t => rfl

theorem bumpTotal_hasStat_mono (st : Stats) (r x : Str) (h : hasStat st x) :
    hasStat (bumpTotal st r) x := by
  unfold hasStat at h ⊢
  unfold bumpTotal
  by_cases hx : x = r
  · subst hx
    simp only [if_pos rfl]
    cases st x with
    | none => rfl
    | some t => rfl
  · simp only [if_neg hx]
    exact h

theorem bumpDup_dup_self (st : Stats) (r : Str) (h : hasStat st r) :
    dupOf (bumpDup st r) r = dupOf st r + 1 := by
  unfold hasStat at h
  unfold dupOf bumpDup
  simp only [if_pos rfl]
  cases hs : st r with
  | none => rw [hs] at h; simp at h
  | some t => rfl

theorem bumpDup_dup_other (st : Stats) (r s : Str) (h : ¬ (s = r)) :
    dupOf (bumpDup st r) s = dupOf st s := by
  unfold dupOf bumpDup
  simp only [if_neg h]

theorem bumpDup_fail (st : Stats) (r s : Str) :
    failOf (bumpDup st r) s = failOf st s := by
  unfold failOf bumpDup
  by_cases h : s = r
  · subst h
    simp only [if_pos rfl]
    cases st s with
    | none => rfl
    | some t => rfl
  · simp only [if_neg h]

theorem bumpDup_total (st : Stats) (r s : Str) :
    totalOf (bumpDup st r) s = totalOf st s := by
  unfold totalOf bumpDup
  by_cases h : s = r
  · subst h
    simp only [if_pos rfl]
    cases st s with
    | none => rfl
    | some t => rfl
  · simp only [if_neg h]

theorem bumpDup_hasStat (st : Stats) (r x : Str) (h : hasStat st x) :
    hasStat (bumpDup st r) x := by
  unfold hasStat at h ⊢
  unfold bumpDup
  by_cases hx : x = r
  · subst hx
    simp only [if_pos rfl]
    cases hs : st x with
    | none => rw [hs] at h; simp at h
    | some t => rfl
  · simp only [if_neg hx]
    exact h

theorem bumpFailed_fail_self (st : Stats) (r : Str) (h : hasStat st r) :
    failOf (bumpFailed st r) r = failOf st r + 1 := by
  unfold hasStat at h
  unfold failOf bumpFailed
  simp only [if_pos rfl]
  cases hs : st r with
  | none => rw [hs] at h; simp at h
  | some t => rfl

theorem bumpFailed_fail_other (st : Stats) (r s : Str) (h : ¬ (s = r)) :
    failOf (bumpFailed st r) s = failOf st s := by
  unfold failOf bumpFailed
  simp only [if_neg h]

theorem bumpFailed_dup (st : Stats) (r s : Str) :
    dupOf (bumpFailed st r) s = dupOf st s := by
  unfold dupOf bumpFailed
  by_cases h : s = r
  · subst h
    simp only [if_pos rfl]
    cases st s with
    | none => rfl
    | some t => rfl
  · simp only [if_neg h]

theorem bumpFailed_total (st : Stats) (r s : Str) :
    totalOf (bumpFailed st r) s = totalOf st s := by
  unfold totalOf bumpFailed
  by_cases h : s = r
  · subst h
    simp only [if_pos rfl]
    cases st s with
    | none => rfl
    | some t => rfl
  · simp only [if_neg h]

theorem bumpFailed_hasStat (st : Stats) (r x : Str) (h : hasStat st x) :
    hasStat (bumpFailed st r) x := by
  unfold hasStat at h ⊢
  unfold bumpFailed
  by_cases hx : x = r
  · subst hx
    simp only [if_pos rfl]
    cases hs : st x with
    | none => rw [hs] at h; simp at h
    | some t => rfl
  · simp only [if_neg hx]
    exact h

/-- The total pass of ingress from any starting stats: `Total` counts the
nodes per source, the other counters are untouched, and every counted
source obtains an entry. -/
theorem statsFold_spec (l : List Node) :
    ∀ (st : Stats) (s : Str),
      totalOf (l.foldl (fun a n => bumpTotal a n.Source) st) s
          = totalOf st s + countSrc l s
      ∧ dupOf (l.foldl (fun a n => bumpTotal a n.Source) st) s = dupOf st s
      ∧ failOf (l.foldl (fun a n => bumpTotal a n.Source) st) s = failOf st s
      ∧ ((hasStat st s ∨ 0 < countSrc l s) →
          hasStat (l.foldl (fun a n => bumpTotal a n.Source) st) s) := by
  induction l with
  | nil =>
    intro st s
    refine ⟨by simp [countSrc], rfl, rfl, ?_⟩
    intro h
    rcases h with h | h
    · exact h
    · simp [countSrc] at h
  | cons n t ih =>
    intro st s
    rw [List.foldl_cons]
    obtain ⟨iht, ihd, ihf, ihh⟩ := ih (bumpTotal st n.Source) s
    have hcnt : countSrc (n :: t) s
        = countSrc t s + (if decide (n.Source = s) = true then 1 else 0) := by
      unfold countSrc
      rw [List.countP_cons]
    refine ⟨?_, ?_, ?_, ?_⟩
    · rw [iht, bumpTotal_total, hcnt]
      by_cases h : s = n.Source
      · simp only [if_pos h, h]
        simp
        omega
      · have h2 : decide (n.Source = s) = false := by
          simp
          exact fun hx => h hx.symm
        simp only [if_neg h, h2]
        simp
    · rw [ihd, bumpTotal_dup]
    · rw [ihf, bumpTotal_fail]
    · intro hor
      apply ihh
      rcases hor with h | h
      · exact Or.inl (bumpTotal_hasStat_mono st n.Source s h)
      · rw [hcnt] at h
        by_cases he : s = n.Source
        · exact Or.inl (by rw [he]; exact bumpTotal_hasStat_self st n.Source)
        · right
          have h2 : decide (n.Source = s) = false := by
            simp
            exact fun hx => he hx.symm
          rw [h2] at h
          simpa using h

theorem fissionNode_Source (isIPf : Str → Bool) (m : Node) (ip : Str) :
    (fissionNode isIPf m ip).Source = m.Source := by
  unfold fissionNode
  dsimp only
  split <;> rfl

theorem fissionNode_ISO (isIPf : Str → Bool) (m : Node) (ip : Str) :
    (fissionNode isIPf m ip).ISO = m.ISO := by
  unfold fissionNode
  dsimp only
  split <;> rfl

theorem countSrc_nil (s : Str) : countSrc [] s = 0 := rfl

theorem countSrc_append (l1 l2 : List Node) (s : Str) :
    countSrc (l1 ++ l2) s = countSrc l1 s + countSrc l2 s := by
  unfold countSrc
  rw [List.countP_append]

theorem countSrc_cons (n : Node) (l : List Node) (s : Str) :
    countSrc (n :: l) s
      = countSrc l s + (if decide (n.Source = s) = true then 1 else 0) := by
  unfold countSrc
  rw [List.countP_cons]

theorem countSrc_filter_split (l : List Node) (q : Node → Bool) (s : Str) :
    countSrc (l.filter q) s + countSrc (l.filter (fun n => !q n)) s
      = countSrc l s := by
  induction l with
  | nil => simp [countSrc]
  | cons n t ih =>
    by_cases hq : q n = true
    · rw [List.filter_cons_of_pos hq, List.filter_cons_of_neg (by simp [hq]),
        countSrc_cons, countSrc_cons]
      omega
    · have hq2 : q n = false := by
        revert hq; cases q n <;> simp
      rw [List.filter_cons_of_neg (by simp [hq2]),
        List.filter_cons_of_pos (by simp [hq2]), countSrc_cons, countSrc_cons]
      omega

theorem countSrc_pos_of_mem (l : List Node) (n : Node) (h : n ∈ l) :
    0 < countSrc l n.Source := by
  unfold countSrc
  rw [List.countP_pos_iff]
  exact ⟨n, h, by simp⟩

/-- The IP loop of ingress: per source, kept nodes plus new duplicates
equal the processed IP nodes; `failed` and `total` are untouched; stat
entries persist; every node in the state came from the old state or the
list. -/
theorem ipFold_spec (l : List Node) :
    ∀ (st : IngSt) (s : Str), (∀ n ∈ l, hasStat st.stats n.Source) →
      (countSrc (l.foldl ipStep st).nodes s + dupOf (l.foldl ipStep st).stats s
          = countSrc st.nodes s + dupOf st.stats s + countSrc l s)
      ∧ failOf (l.foldl ipStep st).stats s = failOf st.stats s
      ∧ totalOf (l.foldl ipStep st).stats s = totalOf st.stats s
      ∧ (∀ x, hasStat st.stats x → hasStat (l.foldl ipStep st).stats x)
      ∧ (∀ n ∈ (l.foldl ipStep st).nodes, n ∈ st.nodes ∨ n ∈ l) := by
  induction l with
  | nil =>
    intro st s h
    exact ⟨by simp [countSrc_nil], rfl, rfl, fun x hx => hx, fun n hn => Or.inl hn⟩
  | cons m t ih =>
    intro st s h
    rw [List.foldl_cons]
    by_cases hk : uniqueKey m ∈ st.used
    · have hstep : ipStep st m = ⟨st.nodes, st.used, bumpDup st.stats m.Source⟩ := by
        unfold ipStep
        rw [if_pos hk]
      rw [hstep]
      obtain ⟨ih1, ih2, ih3, ih4, ih5⟩ :=
        ih ⟨st.nodes, st.used, bumpDup st.stats m.Source⟩ s
          (fun n hn => bumpDup_hasStat _ _ _ (h n (by simp [hn])))
      dsimp only at ih1 ih2 ih3
      refine ⟨?_, ?_, ?_, ?_, ?_⟩
      · rw [ih1, countSrc_cons]
        by_cases he : s = m.Source
        · subst he
          rw [bumpDup_dup_self st.stats m.Source (h m (by simp))]
          simp
          omega
        · rw [bumpDup_dup_other st.stats m.Source s he]
          have h2 : decide (m.Source = s) = false := by
            simp
            exact fun hx => he hx.symm
          rw [h2]
          simp
      · rw [ih2, bumpDup_fail]
      · rw [ih3, bumpDup_total]
      · intro x hx
        exact ih4 x (bumpDup_hasStat _ _ _ hx)
      · intro n hn
        rcases ih5 n hn with h1 | h1
        · exact Or.inl h1
        · exact Or.inr (by simp [h1])
    · have hstep : ipStep st m
          = ⟨st.nodes ++ [m], uniqueKey m :: st.used, st.stats⟩ := by
        unfold ipStep
        rw [if_neg hk]
      rw [hstep]
      obtain ⟨ih1, ih2, ih3, ih4, ih5⟩ :=
        ih ⟨st.nodes ++ [m], uniqueKey m :: st.used, st.stats⟩ s
          (fun n hn => h n (by simp [hn]))
      dsimp only at ih1 ih2 ih3
      refine ⟨?_, ?_, ?_, ?_, ?_⟩
      · rw [ih1, countSrc_cons, countSrc_append, countSrc_cons, countSrc_nil]
        omega
      · exact ih2
      · exact ih3
      · exact ih4
      · intro n hn
        rcases ih5 n hn with h1 | h1
        · rcases List.mem_append.mp h1 with h2 | h2
          · exact Or.inl h2
          · simp at h2
            exact Or.inr (by simp [h2])
        · exact Or.inr (by simp [h1])

/-- The domain loop of ingress under single-answer DNS: per source, kept
clones plus new duplicates plus new failures equal the processed domain
nodes; `total` is untouched; stat entries persist; every node came from
the old state or is a clone of a listed node. -/
theorem domFold_spec (isIPf : Str → Bool) (dns : Str → List Str)
    (hdns : ∀ d, (dns d).length ≤ 1) (l : List Node) :
    ∀ (st : IngSt) (s : Str), (∀ n ∈ l, hasStat st.stats n.Source) →
      (countSrc (l.foldl (domStep isIPf dns) st).nodes s
          + dupOf (l.foldl (domStep isIPf dns) st).stats s
          + failOf (l.foldl (domStep isIPf dns) st).stats s
          = countSrc st.nodes s + dupOf st.stats s + failOf st.stats s
            + countSrc l s)
      ∧ totalOf (l.foldl (domStep isIPf dns) st).stats s = totalOf st.stats s
      ∧ (∀ x, hasStat st.stats x → hasStat (l.foldl (domStep isIPf dns) st).stats x)
      ∧ (∀ n ∈ (l.foldl (domStep isIPf dns) st).nodes,
          n ∈ st.nodes ∨ ∃ m, m ∈ l ∧ n.Source = m.Source ∧ n.ISO = m.ISO) := by
  induction l with
  | nil =>
    intro st s h
    exact ⟨by simp [countSrc_nil], rfl, fun x hx => hx, fun n hn => Or.inl hn⟩
  | cons m t ih =>
    intro st s h
    rw [List.foldl_cons]
    rcases hips : dns m.Server with _ | ⟨ip, ips2⟩
    · -- DoH failure
      have hstep : domStep isIPf dns st m
          = ⟨st.nodes, st.used, bumpFailed st.stats m.Source⟩ := by
        unfold domStep
        dsimp only
        rw [hips]
        simp
      rw [hstep]
      obtain ⟨ih1, ih2, ih3, ih4⟩ :=
        ih ⟨st.nodes, st.used, bumpFailed st.stats m.Source⟩ s
          (fun n hn => bumpFailed_hasStat _ _ _ (h n (by simp [hn])))
      dsimp only at ih1 ih2
      refine ⟨?_, ?_, ?_, ?_⟩
      · rw [ih1, countSrc_cons, bumpFailed_dup]
        by_cases he : s = m.Source
        · subst he
          rw [bumpFailed_fail_self st.stats m.Source (h m (by simp))]
          simp
          omega
        · rw [bumpFailed_fail_other st.stats m.Source s he]
          have h2 : decide (m.Source = s) = false := by
            simp
            exact fun hx => he hx.symm
          rw [h2]
          simp
      · rw [ih2, bumpFailed_total]
      · intro x hx
        exact ih3 x (bumpFailed_hasStat _ _ _ hx)
      · intro n hn
        rcases ih4 n hn with h1 | ⟨m2, hm2, hsrc, hiso⟩
        · exact Or.inl h1
        · exact Or.inr ⟨m2, by simp [hm2], hsrc, hiso⟩
    · -- exactly one answer (the hypothesis caps the DNS list at one)
      have hone : ips2 = [] := by
        have h1 := hdns m.Server
        rw [hips, List.length_cons] at h1
        exact List.eq_nil_of_length_eq_zero (by omega)
      subst hone
      by_cases hk : uniqueKey (fissionNode isIPf m ip) ∈ st.used
      · -- the lone clone is a duplicate
        have hstep : domStep isIPf dns st m
            = ⟨st.nodes, st.used, bumpDup st.stats m.Source⟩ := by
          unfold domStep
          dsimp only
          rw [hips]
          rw [if_neg (by simp)]
          rw [List.foldl_cons, List.foldl_nil]
          unfold cloneStep
          dsimp only
          rw [if_pos hk]
          simp
        rw [hstep]
        obtain ⟨ih1, ih2, ih3, ih4⟩ :=
          ih ⟨st.nodes, st.used, bumpDup st.stats m.Source⟩ s
            (fun n hn => bumpDup_hasStat _ _ _ (h n (by simp [hn])))
        dsimp only at ih1 ih2
        refine ⟨?_, ?_, ?_, ?_⟩
        · rw [ih1, countSrc_cons, bumpDup_fail]
          by_cases he : s = m.Source
          · subst he
            rw [bumpDup_dup_self st.stats m.Source (h m (by simp))]
            simp
            omega
          · rw [bumpDup_dup_other st.stats m.Source s he]
            have h2 : decide (m.Source = s) = false := by
              simp
              exact fun hx => he hx.symm
            rw [h2]
            simp
        · rw [ih2, bumpDup_total]
        · intro x hx
          exact ih3 x (bumpDup_hasStat _ _ _ hx)
        · intro n hn
          rcases ih4 n hn with h1 | ⟨m2, hm2, hsrc, hiso⟩
          · exact Or.inl h1
          · exact Or.inr ⟨m2, by simp [hm2], hsrc, hiso⟩
      · -- the lone clone survives
        have hstep : domStep isIPf dns st m
            = ⟨st.nodes ++ [fissionNode isIPf m ip],
               uniqueKey (fissionNode isIPf m ip) :: st.used, st.stats⟩ := by
          unfold domStep
          dsimp only
          rw [hips]
          rw [if_neg (by simp)]
          rw [List.foldl_cons, List.foldl_nil]
          unfold cloneStep
          dsimp only
          rw [if_neg hk]
          simp
        rw [hstep]
        obtain ⟨ih1, ih2, ih3, ih4⟩ :=
          ih ⟨st.nodes ++ [fissionNode isIPf m ip],
              uniqueKey (fissionNode isIPf m ip) :: st.used, st.stats⟩ s
            (fun n hn => h n (by simp [hn]))
        dsimp only at ih1 ih2
        refine ⟨?_, ?_, ?_, ?_⟩
        · rw [ih1, countSrc_cons, countSrc_append, countSrc_cons, countSrc_nil]
          simp only [fissionNode_Source]
          omega
        · exact ih2
        · exact ih3
        · intro n hn
          rcases ih4 n hn with h1 | ⟨m2, hm2, hsrc, hiso⟩
          · rcases List.mem_append.mp h1 with h2 | h2
            · exact Or.inl h2
            · simp at h2
              refine Or.inr ⟨m, by simp, ?_, ?_⟩
              · rw [h2, fissionNode_Source]
              · rw [h2, fissionNode_ISO]
          · exact Or.inr ⟨m2, by simp [hm2], hsrc, hiso⟩

theorem ne_nil_isEmpty_false (l : Str) (h : l ≠ []) : l.isEmpty = false := by
  cases l with
  | nil => exact absurd rfl h
  | cons a b => rfl

/-- A computed emoji certifies that both the ISO and the emoji are
non-empty (the empty ISO and one-letter ISOs panic instead). -/
theorem getEmojiByISO_ne (iso em : Str) (h : getEmojiByISO iso = some em) :
    iso ≠ [] ∧ em ≠ [] := by
  unfold getEmojiByISO at h
  cases hf : emojiMap.find? (fun kv => decide (kv.1 = iso)) with
  | some kv =>
    rw [hf] at h
    simp at h
    have hmem := List.mem_of_find?_eq_some hf
    have hp := List.find?_some hf
    have hkey : kv.1 = iso := of_decide_eq_true hp
    have hfacts : ∀ kv2 ∈ emojiMap, kv2.1 ≠ [] ∧ kv2.2 ≠ [] := by decide
    exact ⟨by rw [← hkey]; exact (hfacts kv hmem).1,
           by rw [← h]; exact (hfacts kv hmem).2⟩
  | none =>
    rw [hf] at h
    unfold calculateEmojiFromISO at h
    cases iso with
    | nil => simp at h
    | cons c1 r1 =>
      cases r1 with
      | nil => simp at h
      | cons c2 r2 =>
        simp at h
        refine ⟨by simp, ?_⟩
        rw [← h]
        simp

/-- The probe pass does not change the dedup keys (positionally). -/
theorem detectAll_keys (probe : Node → Option Str) :
    ∀ (l : List Node) (st : Stats) (l2 : List Node) (st2 : Stats),
      detectAll probe l st = some (l2, st2) →
      l2.map uniqueKey = l.map uniqueKey := by
  intro l
  induction l with
  | nil =>
    intro st l2 st2 h
    unfold detectAll at h
    simp at h
    rw [← h.1]
  | cons n rest ih =>
    intro st l2 st2 h
    unfold detectAll at h
    cases hp : probe n with
    | none =>
      rw [hp] at h
      rw [Option.map_eq_some'] at h
      obtain ⟨p, hdet, heq⟩ := h
      obtain ⟨l3, st3⟩ := p
      rw [Prod.ext_iff] at heq
      obtain ⟨he1, he2⟩ := heq
      dsimp only at he1 he2
      rw [← he1, List.map_cons, List.map_cons, ih _ _ _ hdet]
    | some iso =>
      rw [hp] at h
      dsimp only at h
      cases hem : getEmojiByISO iso with
      | none => rw [hem] at h; dsimp only at h; simp at h
      | some em =>
        rw [hem] at h
        dsimp only at h
        rw [Option.map_eq_some'] at h
        obtain ⟨p, hdet, heq⟩ := h
        obtain ⟨l3, st3⟩ := p
        rw [Prod.ext_iff] at heq
        obtain ⟨he1, he2⟩ := heq
        dsimp only at he1 he2
        rw [← he1, List.map_cons, List.map_cons, ih _ _ _ hdet]
        rfl

/-- The probe pass, per source: surviving nodes plus new failures equal
the probed nodes; `duplicated` and `total` are untouched. -/
theorem detectAll_spec (probe : Node → Option Str) :
    ∀ (l : List Node) (st : Stats) (s : Str),
      (∀ n ∈ l, hasStat st n.Source) → (∀ n ∈ l, n.ISO = []) →
      ∀ l2 st2, detectAll probe l st = some (l2, st2) →
      (countSrc (l2.filter (fun n => !n.ISO.isEmpty && !n.Emoji.isEmpty)) s
          + failOf st2 s = countSrc l s + failOf st s)
      ∧ dupOf st2 s = dupOf st s := by
  intro l
  induction l with
  | nil =>
    intro st s hh hi l2 st2 h
    unfold detectAll at h
    simp at h
    obtain ⟨h1, h2⟩ := h
    subst h1
    subst h2
    exact ⟨by simp [countSrc_nil], rfl⟩
  | cons n rest ih =>
    intro st s hh hi l2 st2 h
    unfold detectAll at h
    cases hp : probe n with
    | none =>
      rw [hp] at h
      rw [Option.map_eq_some'] at h
      obtain ⟨p, hdet, heq⟩ := h
      obtain ⟨l3, st3⟩ := p
      rw [Prod.ext_iff] at heq
      obtain ⟨he1, he2⟩ := heq
      dsimp only at he1 he2
      obtain ⟨ih1, ih2⟩ := ih (bumpFailed st n.Source) s
        (fun x hx => bumpFailed_hasStat _ _ _ (hh x (by simp [hx])))
        (fun x hx => hi x (by simp [hx])) l3 st3 hdet
      have hfc : List.filter (fun x => !x.ISO.isEmpty && !x.Emoji.isEmpty) (n :: l3)
          = List.filter (fun x => !x.ISO.isEmpty && !x.Emoji.isEmpty) l3 := by
        rw [List.filter_cons, hi n (by simp)]
        simp
      refine ⟨?_, ?_⟩
      · rw [← he1, ← he2, hfc, countSrc_cons]
        by_cases he : s = n.Source
        · subst he
          rw [bumpFailed_fail_self st n.Source (hh n (by simp))] at ih1
          have hd : decide (n.Source = n.Source) = true := by simp
          rw [hd, if_pos rfl]
          omega
        · rw [bumpFailed_fail_other st n.Source s he] at ih1
          have hd : decide (n.Source = s) = false := by
            simp
            exact fun hx => he hx.symm
          rw [hd, if_neg Bool.false_ne_true]
          omega
      · rw [← he2, ih2, bumpFailed_dup]
    | some iso =>
      rw [hp] at h
      dsimp only at h
      cases hem : getEmojiByISO iso with
      | none => rw [hem] at h; dsimp only at h; simp at h
      | some em =>
        rw [hem] at h
        dsimp only at h
        rw [Option.map_eq_some'] at h
        obtain ⟨p, hdet, heq⟩ := h
        obtain ⟨l3, st3⟩ := p
        rw [Prod.ext_iff] at heq
        obtain ⟨he1, he2⟩ := heq
        dsimp only at he1 he2
        obtain ⟨ih1, ih2⟩ := ih st s
          (fun x hx => hh x (by simp [hx]))
          (fun x hx => hi x (by simp [hx])) l3 st3 hdet
        obtain ⟨hiso, hem2⟩ := getEmojiByISO_ne iso em hem
        have hkeepn : (!({ n with ISO := iso, Emoji := em } : Node).ISO.isEmpty
            && !({ n with ISO := iso, Emoji := em } : Node).Emoji.isEmpty) = true := by
          dsimp only
          rw [ne_nil_isEmpty_false iso hiso, ne_nil_isEmpty_false em hem2]
          rfl
        have hfc : List.filter (fun x => !x.ISO.isEmpty && !x.Emoji.isEmpty)
              (({ n with ISO := iso, Emoji := em } : Node) :: l3)
            = ({ n with ISO := iso, Emoji := em } : Node)
              :: List.filter (fun x => !x.ISO.isEmpty && !x.Emoji.isEmpty) l3 := by
          rw [List.filter_cons, if_pos hkeepn]
        refine ⟨?_, ?_⟩
        · rw [← he1, ← he2, hfc, countSrc_cons, countSrc_cons]
          dsimp only
          omega
        · rw [← he2, ih2]

/-- Per-source accounting of the whole ingress pass under single-answer
DNS: kept + duplicated + failed = seen, `total` = seen, every kept node's
source has a stat entry, and kept nodes inherit the intake's empty ISO. -/
theorem ingressModel_spec (intake : List Node) (isIPf : Str → Bool)
    (dns : Str → List Str) (hdns : ∀ d, (dns d).length ≤ 1) (s : Str) :
    (countSrc (ingressModel intake isIPf dns).nodes s
        + dupOf (ingressModel intake isIPf dns).stats s
        + failOf (ingressModel intake isIPf dns).stats s
      = countSrc intake s)
    ∧ totalOf (ingressModel intake isIPf dns).stats s = countSrc intake s
    ∧ (∀ n ∈ (ingressModel intake isIPf dns).nodes,
        hasStat (ingressModel intake isIPf dns).stats n.Source)
    ∧ ((∀ n ∈ intake, n.ISO = []) →
        ∀ n ∈ (ingressModel intake isIPf dns).nodes, n.ISO = []) := by
  have hrw : ingressModel intake isIPf dns
      = (intake.filter (fun n => !isIPf n.Server)).foldl (domStep isIPf dns)
          ((intake.filter (fun n => isIPf n.Server)).foldl ipStep
            ⟨[], [], intake.foldl (fun st n => bumpTotal st n.Source) emptyStats⟩) :=
    rfl
  rw [hrw]
  have hstat1 : ∀ x, 0 < countSrc intake x →
      hasStat (intake.foldl (fun st n => bumpTotal st n.Source) emptyStats) x :=
    fun x hx => (statsFold_spec intake emptyStats x).2.2.2 (Or.inr hx)
  obtain ⟨hT, hD, hF, _⟩ := statsFold_spec intake emptyStats s
  have hIPh : ∀ n ∈ intake.filter (fun n => isIPf n.Server),
      hasStat
        (⟨[], [], intake.foldl (fun st n => bumpTotal st n.Source) emptyStats⟩
          : IngSt).stats n.Source :=
    fun n hn =>
      hstat1 n.Source (countSrc_pos_of_mem intake n (List.mem_of_mem_filter hn))
  obtain ⟨hip1, hip2, hip3, hip4, hip5⟩ :=
    ipFold_spec (intake.filter (fun n => isIPf n.Server))
      ⟨[], [], intake.foldl (fun st n => bumpTotal st n.Source) emptyStats⟩ s hIPh
  have hDomh : ∀ n ∈ intake.filter (fun n => !isIPf n.Server),
      hasStat ((intake.filter (fun n => isIPf n.Server)).foldl ipStep
        ⟨[], [], intake.foldl (fun st n => bumpTotal st n.Source) emptyStats⟩).stats
        n.Source :=
    fun n hn => hip4 n.Source
      (hstat1 n.Source (countSrc_pos_of_mem intake n (List.mem_of_mem_filter hn)))
  obtain ⟨hd1, hd2, hd3, hd4⟩ :=
    domFold_spec isIPf dns hdns (intake.filter (fun n => !isIPf n.Server))
      ((intake.filter (fun n => isIPf n.Server)).foldl ipStep
        ⟨[], [], intake.foldl (fun st n => bumpTotal st n.Source) emptyStats⟩) s hDomh
  dsimp only at hip1 hip2 hip3
  have hsplit := countSrc_filter_split intake (fun n => isIPf n.Server) s
  have hE0 : countSrc ([] : List Node) s = 0 := rfl
  have hTe : totalOf emptyStats s = 0 := rfl
  have hDe : dupOf emptyStats s = 0 := rfl
  have hFe : failOf emptyStats s = 0 := rfl
  refine ⟨by omega, by omega, ?_, ?_⟩
  · intro n hn
    rcases hd4 n hn with hcase | ⟨m, hm, hsrc, _⟩
    · rcases hip5 n hcase with hnil | hipn
      · exact absurd hnil (List.not_mem_nil n)
      · exact hd3 n.Source (hip4 n.Source (hstat1 n.Source
          (countSrc_pos_of_mem intake n (List.mem_of_mem_filter hipn))))
    · rw [hsrc]
      exact hd3 m.Source (hip4 m.Source (hstat1 m.Source
        (countSrc_pos_of_mem intake m (List.mem_of_mem_filter hm))))
  · intro hiso n hn
    rcases hd4 n hn with hcase | ⟨m, hm, _, hisoeq⟩
    · rcases hip5 n hcase with hnil | hipn
      · exact absurd hnil (List.not_mem_nil n)
      · exact hiso n (List.mem_of_mem_filter hipn)
    · rw [hisoeq]
      exact hiso m (List.mem_of_mem_filter hm)

/-! ## C1 — per-source accounting of the full pipeline -/

def cxSrc : Str := "A".toList

/-- A domain node used in counterexample runs. -/
def cxNode : Node :=
  { OriginName := "n1".toList, typ := "ss".toList,
    Server := "example.com".toList, Port := "443".toList,
    Params := [], ParamString := [],
    Source := cxSrc, ISO := [], Emoji := [] }

/-- `net.ParseIP` oracle: exactly the two resolved addresses are IPs. -/
def cxIsIP : Str → Bool := fun s =>
  decide (s = "5.5.5.5".toList) || decide (s = "6.6.6.6".toList)

/-- DNS oracle: the example domain resolves to two A records. -/
def cxDns : Str → List Str := fun s =>
  if s = "example.com".toList then ["5.5.5.5".toList, "6.6.6.6".toList] else []

/-- Probe oracle: every node traces to US. -/
def cxProbe : Node → Option Str := fun _ => some ("US".toList)

/-- **C1** (counterexample) — DNS fission breaks the per-source
accounting: one domain node resolving to two addresses yields two
surviving nodes, so `surviving = 2 > 1 = total_seen` and
`duplicated + failed + surviving ≠ total_seen`. -/
theorem c1_counterexample :
    (pipelineIE [cxNode] cxIsIP cxDns cxProbe).map
        (fun p => (countSrc p.1 cxSrc, dupOf p.2 cxSrc, failOf p.2 cxSrc))
      = some (2, 0, 0)
    ∧ countSrc [cxNode] cxSrc = 1
    ∧ ¬ (2 ≤ 1 ∧ 0 + 0 + 2 = 1) := by
  refine ⟨rfl, rfl, by decide⟩

/-- **C1** (amended) — when every domain resolves to at most one address
(no fission multiplication), the per-source accounting does hold on every
completed run: `surviving ≤ total_seen` and
`duplicated + failed + surviving = total_seen`. -/
theorem c1_stats_amended (intake : List Node) (isIPf : Str → Bool)
    (dns : Str → List Str) (probe : Node → Option Str) (s : Str)
    (hdns : ∀ d, (dns d).length ≤ 1)
    (hiso : ∀ n ∈ intake, n.ISO = [])
    (survivors : List Node) (stats : Stats)
    (hrun : pipelineIE intake isIPf dns probe = some (survivors, stats)) :
    countSrc survivors s ≤ countSrc intake s
    ∧ dupOf stats s + failOf stats s + countSrc survivors s
        = countSrc intake s := by
  obtain ⟨hacc, htot, hhs, hisokeep⟩ := ingressModel_spec intake isIPf dns hdns s
  have hpe : pipelineIE intake isIPf dns probe
      = (detectAll probe (ingressModel intake isIPf dns).nodes
          (ingressModel intake isIPf dns).stats).map (fun p =>
            (p.1.filter (fun n => !n.ISO.isEmpty && !n.Emoji.isEmpty),
             fun s2 => (p.2 s2).map (fun t =>
               { t with total :=
                  countSrc (p.1.filter
                    (fun n => !n.ISO.isEmpty && !n.Emoji.isEmpty)) s2 }))) := rfl
  rw [hpe] at hrun
  cases hdet : detectAll probe (ingressModel intake isIPf dns).nodes
      (ingressModel intake isIPf dns).stats with
  | none => rw [hdet] at hrun; simp at hrun
  | some p =>
    obtain ⟨l2, st2⟩ := p
    rw [hdet] at hrun
    rw [Option.map_some'] at hrun
    rw [Option.some.injEq, Prod.ext_iff] at hrun
    obtain ⟨hs1, hs2⟩ := hrun
    dsimp only at hs1 hs2
    obtain ⟨hda, hdd⟩ := detectAll_spec probe
      (ingressModel intake isIPf dns).nodes
      (ingressModel intake isIPf dns).stats s hhs (hisokeep hiso) l2 st2 hdet
    have hds : dupOf stats s = dupOf st2 s := by
      rw [← hs2]
      unfold dupOf
      dsimp only
      cases st2 s with
      | none => rfl
      | some t => rfl
    have hfs : failOf stats s = failOf st2 s := by
      rw [← hs2]
      unfold failOf
      dsimp only
      cases st2 s with
      | none => rfl
      | some t => rfl
    have hsurv : countSrc survivors s
        = countSrc (l2.filter (fun n => !n.ISO.isEmpty && !n.Emoji.isEmpty)) s := by
      rw [← hs1]
    exact ⟨by omega, by omega⟩

/-- Witness for the amended C1 at a concrete (empty-intake) run. -/
theorem c1_stats_amended_witness :
    countSrc [] cxSrc ≤ countSrc [] cxSrc
    ∧ dupOf (fun _ => none) cxSrc + failOf (fun _ => none) cxSrc
        + countSrc [] cxSrc = countSrc [] cxSrc :=
  c1_stats_amended [] cxIsIP (fun _ => []) cxProbe cxSrc
    (fun _ => Nat.zero_le 1) (fun n hn => absurd hn (List.not_mem_nil n))
    [] (fun _ => none) rfl

/-! ## C2 — uniqueness of the dedup key in the output -/

/-- The dedup invariant of the ingress loops: every kept node's key is
registered in `used`, and kept keys are pairwise distinct. -/
def KInv (st : IngSt) : Prop :=
  (∀ n ∈ st.nodes, uniqueKey n ∈ st.used)
  ∧ st.nodes.Pairwise (fun a b => uniqueKey a ≠ uniqueKey b)

theorem append_fresh_KInv (nodes : List Node) (used : List Str) (stats : Stats)
    (m : Node) (h1 : ∀ x ∈ nodes, uniqueKey x ∈ used)
    (h2 : nodes.Pairwise (fun a b => uniqueKey a ≠ uniqueKey b))
    (hk : uniqueKey m ∉ used) :
    KInv ⟨nodes ++ [m], uniqueKey m :: used, stats⟩ := by
  refine ⟨?_, ?_⟩
  · intro x hx
    rcases List.mem_append.mp hx with hx | hx
    · exact List.mem_cons_of_mem _ (h1 x hx)
    · rw [List.mem_singleton.mp hx]
      exact List.mem_cons_self _ _
  · rw [List.pairwise_append]
    refine ⟨h2, List.pairwise_singleton _ _, ?_⟩
    intro a ha b hb
    rw [List.mem_singleton.mp hb]
    intro heq
    exact hk (heq ▸ h1 a ha)

theorem ipStep_KInv (st : IngSt) (n : Node) (h : KInv st) : KInv (ipStep st n) := by
  obtain ⟨h1, h2⟩ := h
  unfold ipStep
  by_cases hk : uniqueKey n ∈ st.used
  · rw [if_pos hk]
    exact ⟨h1, h2⟩
  · rw [if_neg hk]
    exact append_fresh_KInv st.nodes st.used st.stats n h1 h2 hk

theorem cloneStep_KInv (isIPf : Str → Bool) (n : Node) (p : IngSt × Bool)
    (ip : Str) (h : KInv p.1) : KInv (cloneStep isIPf n p ip).1 := by
  obtain ⟨h1, h2⟩ := h
  unfold cloneStep
  dsimp only
  by_cases hk : uniqueKey (fissionNode isIPf n ip) ∈ p.1.used
  · rw [if_pos hk]
    exact ⟨h1, h2⟩
  · rw [if_neg hk]
    exact append_fresh_KInv p.1.nodes p.1.used p.1.stats
      (fissionNode isIPf n ip) h1 h2 hk

theorem cloneFold_KInv (isIPf : Str → Bool) (n : Node) :
    ∀ (ips : List Str) (p : IngSt × Bool), KInv p.1 →
      KInv ((ips.foldl (cloneStep isIPf n) p).1) := by
  intro ips
  induction ips with
  | nil => intro p h; exact h
  | cons ip t ih =>
    intro p h
    rw [List.foldl_cons]
    exact ih _ (cloneStep_KInv isIPf n p ip h)

theorem domStep_KInv (isIPf : Str → Bool) (dns : Str → List Str) (st : IngSt)
    (n : Node) (h : KInv st) : KInv (domStep isIPf dns st n) := by
  unfold domStep
  dsimp only
  by_cases hips : dns n.Server = []
  · rw [if_pos hips]
    exact ⟨h.1, h.2⟩
  · rw [if_neg hips]
    have hf := cloneFold_KInv isIPf n (dns n.Server) (st, false) h
    by_cases hr : ((dns n.Server).foldl (cloneStep isIPf n) (st, false)).2 = true
    · rw [if_pos hr]
      exact hf
    · rw [if_neg hr]
      exact ⟨hf.1, hf.2⟩

theorem ipFold_KInv :
    ∀ (l : List Node) (st : IngSt), KInv st → KInv (l.foldl ipStep st) := by
  intro l
  induction l with
  | nil => intro st h; exact h
  | cons n t ih =>
    intro st h
    rw [List.foldl_cons]
    exact ih _ (ipStep_KInv st n h)

theorem domFold_KInv (isIPf : Str → Bool) (dns : Str → List Str) :
    ∀ (l : List Node) (st : IngSt), KInv st →
      KInv (l.foldl (domStep isIPf dns) st) := by
  intro l
  induction l with
  | nil => intro st h; exact h
  | cons n t ih =>
    intro st h
    rw [List.foldl_cons]
    exact ih _ (domStep_KInv isIPf dns st n h)

theorem ingressModel_KInv (intake : List Node) (isIPf : Str → Bool)
    (dns : Str → List Str) : KInv (ingressModel intake isIPf dns) := by
  have hrw : ingressModel intake isIPf dns
      = (intake.filter (fun n => !isIPf n.Server)).foldl (domStep isIPf dns)
          ((intake.filter (fun n => isIPf n.Server)).foldl ipStep
            ⟨[], [], intake.foldl (fun st n => bumpTotal st n.Source) emptyStats⟩) :=
    rfl
  rw [hrw]
  exact domFold_KInv isIPf dns _ _ (ipFold_KInv _ _
    ⟨fun n hn => absurd hn (List.not_mem_nil n), List.Pairwise.nil⟩)

/-- **C2** — the dedup key (type, server, port) appears at most once: in
the node list produced by ingress, and hence among the survivors published
by every completed pipeline run, no two nodes agree on all of `Type`,
`Server` (post-fission) and `Port`. -/
theorem c2_dedup_key (intake : List Node) (isIPf : Str → Bool)
    (dns : Str → List Str) (probe : Node → Option Str) :
    (ingressModel intake isIPf dns).nodes.Pairwise
      (fun a b => ¬ (a.typ = b.typ ∧ a.Server = b.Server ∧ a.Port = b.Port))
    ∧ (∀ survivors stats,
        pipelineIE intake isIPf dns probe = some (survivors, stats) →
        survivors.Pairwise
          (fun a b => ¬ (a.typ = b.typ ∧ a.Server = b.Server ∧ a.Port = b.Port))) := by
  have hkey : (ingressModel intake isIPf dns).nodes.Pairwise
      (fun a b => uniqueKey a ≠ uniqueKey b) :=
    (ingressModel_KInv intake isIPf dns).2
  have himp : ∀ a b : Node, uniqueKey a ≠ uniqueKey b →
      ¬ (a.typ = b.typ ∧ a.Server = b.Server ∧ a.Port = b.Port) := by
    intro a b hne hcomp
    apply hne
    unfold uniqueKey
    rw [hcomp.1, hcomp.2.1, hcomp.2.2]
  refine ⟨hkey.imp (fun h => himp _ _ h), ?_⟩
  intro survivors stats hrun
  have hpe : pipelineIE intake isIPf dns probe
      = (detectAll probe (ingressModel intake isIPf dns).nodes
          (ingressModel intake isIPf dns).stats).map (fun p =>
            (p.1.filter (fun n => !n.ISO.isEmpty && !n.Emoji.isEmpty),
             fun s2 => (p.2 s2).map (fun t =>
               { t with total :=
                  countSrc (p.1.filter
                    (fun n => !n.ISO.isEmpty && !n.Emoji.isEmpty)) s2 }))) := rfl
  rw [hpe] at hrun
  cases hdet : detectAll probe (ingressModel intake isIPf dns).nodes
      (ingressModel intake isIPf dns).stats with
  | none => rw [hdet] at hrun; simp at hrun
  | some p =>
    obtain ⟨l2, st2⟩ := p
    rw [hdet] at hrun
    rw [Option.map_some'] at hrun
    rw [Option.some.injEq, Prod.ext_iff] at hrun
    obtain ⟨hs1, _⟩ := hrun
    dsimp only at hs1
    have hmap : l2.map uniqueKey
        = (ingressModel intake isIPf dns).nodes.map uniqueKey :=
      detectAll_keys probe _ _ _ _ hdet
    have h1 : ((ingressModel intake isIPf dns).nodes.map uniqueKey).Pairwise Ne :=
      List.pairwise_map.mpr hkey
    have h2 : (l2.map uniqueKey).Pairwise Ne := hmap.symm ▸ h1
    have h3 : l2.Pairwise (fun a b => uniqueKey a ≠ uniqueKey b) :=
      List.pairwise_map.mp h2
    have h4 : survivors.Pairwise (fun a b => uniqueKey a ≠ uniqueKey b) := by
      rw [← hs1]
      exact List.Pairwise.sublist (List.filter_sublist _) h3
    exact h4.imp (fun h => himp _ _ h)

/-- Witness for C2's run-level part at a concrete (empty-intake) run. -/
theorem c2_dedup_key_witness :
    ([] : List Node).Pairwise
      (fun a b => ¬ (a.typ = b.typ ∧ a.Server = b.Server ∧ a.Port = b.Port)) :=
  (c2_dedup_key [] cxIsIP cxDns cxProbe).2 [] (fun _ => none) rfl

end Conflux
